import Mathlib

/-!
# Universal Plotter — verification of the row-normalization engine

Shallow embedding of the client-side normalization core of the
`universal-plotter` repository (file `src/unnamed/part_000`, with the
`src/script.js` variant sharing `isNumeric`, `groupRowsByKey`,
`getFileExtension` and `parseXmlToRows`).

JavaScript values reaching the engine are modelled by `JVal`:
strings, numbers (exact rationals; JSON numbers), booleans, `null`,
arrays, plain objects, and `undef` (JavaScript `undefined`, which also
stands for the array holes `delete` leaves behind).  Objects are
association lists kept in JavaScript own-property order: keys that are
canonical array indices form a sorted prefix in ascending numeric
order, followed by the remaining keys in insertion order; `setKey`
maintains this order exactly the way a JavaScript property write does.
Modelling notes: numbers are exact rationals (IEEE rounding does not
affect any property proved here, and the double overflow threshold is
modelled explicitly in the numeric coercions); property reads see own
properties only (prototype-chain members of `Object.prototype` and
`Array.prototype` are not modelled); `toLowerCase`/`trim` are modelled
on the ASCII range the repository's inputs use.
-/

set_option autoImplicit false
set_option maxRecDepth 16000

attribute [local semireducible] Rat.add Rat.mul Rat.sub Rat.inv

namespace UPlot

/-- JavaScript values flowing through the normalization engine.
`undef` models JavaScript `undefined` (missing properties, array holes). -/
inductive JVal where
  | null : JVal
  | undef : JVal
  | bool (b : Bool) : JVal
  | num (q : ℚ) : JVal
  | str (s : String) : JVal
  | arr (elems : List JVal) : JVal
  | obj (fields : List (String × JVal)) : JVal
deriving Repr

/-- A row / JavaScript object body: keys to values, in JS property order. -/
abbrev JObj := List (String × JVal)

/-- Boolean equality on `JVal` (needed because `deriving DecidableEq`
does not handle this nested inductive). -/
def beqJVal : JVal → JVal → Bool
  | .null, .null => true
  | .undef, .undef => true
  | .bool a, .bool b => a == b
  | .num a, .num b => a == b
  | .str a, .str b => a == b
  | .arr xs, .arr ys => beqList xs ys
  | .obj fs, .obj gs => beqFields fs gs
  | _, _ => false
where
  beqList : List JVal → List JVal → Bool
    | [], [] => true
    | x :: xs, y :: ys => beqJVal x y && beqList xs ys
    | _, _ => false
  beqFields : List (String × JVal) → List (String × JVal) → Bool
    | [], [] => true
    | (k, v) :: fs, (k', v') :: gs => k == k' && beqJVal v v' && beqFields fs gs
    | _, _ => false

theorem beqJVal_eq_true_iff : ∀ a b : JVal, beqJVal a b = true ↔ a = b := by
  intro a b
  refine beqJVal.induct
    (fun xs ys => beqJVal.beqList xs ys = true ↔ xs = ys)
    (fun a b => beqJVal a b = true ↔ a = b)
    (fun fs gs => beqJVal.beqFields fs gs = true ↔ fs = gs)
    ?_ ?_ ?_ ?_ ?_ ?_ ?_ ?_ ?_ ?_ ?_ ?_ ?_ ?_ a b
  · simp [beqJVal]
  · simp [beqJVal]
  · intro x y; simp [beqJVal]
  · intro x y; simp [beqJVal]
  · intro x y; simp [beqJVal]
  · intro xs ys ih; simpa [beqJVal] using ih
  · intro fs gs ih; simpa [beqJVal] using ih
  · intro t x h1 h2 h3 h4 h5 h6 h7
    constructor
    · intro hbeq
      exfalso
      cases t <;> cases x <;> simp_all [beqJVal]
    · rintro rfl
      exfalso
      cases t <;> simp_all
  · simp [beqJVal.beqList]
  · intro x xs y ys ih1 ih2; simp [beqJVal.beqList, ih1, ih2]
  · intro t x h1 h2
    constructor
    · intro hbeq; exfalso; cases t <;> cases x <;> simp_all [beqJVal.beqList]
    · rintro rfl
      cases t with
      | nil => exact (h1 rfl rfl).elim
      | cons hd tl => exact (h2 hd tl hd tl rfl rfl).elim
  · simp [beqJVal.beqFields]
  · intro k v fs k' v' gs ih1 ih2
    simp [beqJVal.beqFields, ih1, ih2, and_assoc]
  · intro t x h1 h2
    constructor
    · intro hbeq; exfalso
      rcases t with _ | ⟨⟨tk, tv⟩, ts⟩ <;> rcases x with _ | ⟨⟨xk, xv⟩, xs⟩ <;>
        simp_all [beqJVal.beqFields]
    · rintro rfl
      rcases t with _ | ⟨⟨tk, tv⟩, ts⟩
      · exact (h1 rfl rfl).elim
      · exact (h2 tk tv ts tk tv ts rfl rfl).elim

instance : DecidableEq JVal := fun a b =>
  decidable_of_iff (beqJVal a b = true) (beqJVal_eq_true_iff a b)

/-! ## The JavaScript object model: property order and property writes -/

/-- Numeric value of a string of decimal digits. -/
def digitsToNat (cs : List Char) : Nat :=
  cs.foldl (fun acc c => acc * 10 + (c.toNat - '0'.toNat)) 0

/-- `some n` exactly when the string is a canonical array index as the
ECMAScript property-order rules use it: a string of decimal digits with
no leading zero (except `"0"` itself) whose value is below `2^32 - 1`. -/
def canonicalIndex (k : String) : Option Nat :=
  let cs := k.data
  if cs ≠ [] ∧ (∀ c ∈ cs, c.isDigit) ∧ (cs.head? = some '0' → cs = ['0']) ∧
      digitsToNat cs < 2 ^ 32 - 1 then
    some (digitsToNat cs)
  else none

instance (k : String) : Decidable (canonicalIndex k).isSome := by
  unfold canonicalIndex; infer_instance

/-- Insert a property with a canonical-index key `k` (of numeric value
`i`) into the JS-ordered list: it lands inside the index-key prefix,
before the first index key with a larger value and before any
non-index key. -/
def insertIndexKey {α : Type} : List (String × α) → String → Nat → α → List (String × α)
  | [], k, _, v => [(k, v)]
  | (k', v') :: rest, k, i, v =>
    match canonicalIndex k' with
    | some j =>
      if j < i then (k', v') :: insertIndexKey rest k i v
      else (k, v) :: (k', v') :: rest
    | none => (k, v) :: (k', v') :: rest

/-- Update the (unique) occurrence of key `k` in place. -/
def updateKey {α : Type} : List (String × α) → String → α → List (String × α)
  | [], _, _ => []
  | (k0, v0) :: rest, k, v =>
    if k0 = k then (k, v) :: rest else (k0, v0) :: updateKey rest k v

/-- JavaScript property write `o[k] = v` on an object in JS property
order: an existing key is updated in place, a fresh canonical-index key
is inserted at its numeric position in the index prefix, and any other
fresh key is appended. -/
def setKey {α : Type} (o : List (String × α)) (k : String) (v : α) : List (String × α) :=
  if o.any (fun kv => kv.1 = k) then updateKey o k v
  else
    match canonicalIndex k with
    | some i => insertIndexKey o k i v
    | none => o ++ [(k, v)]

/-- Property read on a generic JS-ordered association list. -/
def getKeyG {α : Type} : List (String × α) → String → Option α
  | [], _ => none
  | (k', v) :: rest, k => if k' = k then some v else getKeyG rest k

/-- Property read `o[k]` on an object body: `undef` when absent. -/
def getKey (o : JObj) (k : String) : JVal :=
  (getKeyG o k).getD JVal.undef

/-- `Object.assign(target, source)`: every own property of `source` is
written onto `target`, in `source`'s property order. -/
def objAssign (target source : JObj) : JObj :=
  source.foldl (fun acc kv => setKey acc kv.1 kv.2) target

/-! ## Well-formed JavaScript object states

A `JVal` represents a state a JavaScript engine can actually hold when
(1) object bodies have no duplicate keys, (2) object bodies are in JS
property order (index keys as a sorted ascending prefix), and (3) no
`undef` appears (values produced by `JSON.parse` contain none; holes
appear only through `delete`). -/

/-- Keys are pairwise distinct. -/
def keysNodupB (fs : List (String × JVal)) : Bool :=
  (fs.map Prod.fst).Nodup

/-- `keyBefore a b`: key `a` may precede key `b` in JS property order
(index keys strictly ascending, index keys before non-index keys,
non-index keys freely ordered among themselves). -/
def keyBefore (a b : String) : Bool :=
  match canonicalIndex a, canonicalIndex b with
  | some i, some j => decide (i < j)
  | some _, none => true
  | none, some _ => false
  | none, none => true

/-- The list is in JS property order: index keys form a strictly
ascending prefix, followed by the non-index keys. -/
def jsOrderedB (fs : List (String × JVal)) : Bool :=
  decide (fs.Pairwise (fun x y => keyBefore x.1 y.1 = true))

/-- The value is one `JSON.parse` can produce: no `undef`, and every
object body has distinct keys and sits in JS property order. -/
def isJson : JVal → Bool
  | .null => true
  | .undef => false
  | .bool _ => true
  | .num _ => true
  | .str _ => true
  | .arr xs => isJsonList xs
  | .obj fs => keysNodupB fs && jsOrderedB fs && isJsonFields fs
where
  isJsonList : List JVal → Bool
    | [] => true
    | x :: xs => isJson x && isJsonList xs
  isJsonFields : List (String × JVal) → Bool
    | [] => true
    | (_, v) :: fs => isJson v && isJsonFields fs

/-! ## JavaScript truthiness, `typeof`, and scalar classification -/

/-- JavaScript truthiness of a value. -/
def jsTruthy : JVal → Bool
  | .null => false
  | .undef => false
  | .bool b => b
  | .num q => q ≠ 0
  | .str s => s ≠ ""
  | .arr _ => true
  | .obj _ => true

/-- `typeof v === 'object'`: true for `null`, arrays and plain objects. -/
def typeofIsObject : JVal → Bool
  | .null => true
  | .arr _ => true
  | .obj _ => true
  | _ => false

/-- The guard `v && typeof v === 'object'` the source uses repeatedly:
true exactly for arrays and plain objects. -/
def isObjLike (v : JVal) : Bool := jsTruthy v && typeofIsObject v

/-- A flattened cell: string, number, boolean or `null`. -/
def isScalar : JVal → Bool
  | .str _ => true
  | .num _ => true
  | .bool _ => true
  | .null => true
  | _ => false

/-- `value && typeof value === 'object' && !Array.isArray(value)`:
exactly the plain objects (`null` fails the truthiness test). -/
def isPlainObject : JVal → Bool
  | .obj _ => true
  | _ => false

/-! ## `flattenObject` (part_000 lines 82-104)

`flattenObject(obj, prefix)` iterates `Object.keys(obj)`; for a plain
object value it recurses with the dot-joined key, for an array value it
walks the elements by index with `key[index]` keys (recursing into
object-like elements, `forEach` skipping holes), and otherwise assigns
the scalar.  When `flattenObject` itself receives an array (it is also
called on array elements that are arrays), `Object.keys` of an array is
its index strings, so index fields are walked with dot-joined numeric
keys. -/

/-- The key the source builds with `` prefix ? `${prefix}.${key}` : key ``. -/
def joinKey (pre k : String) : String := if pre = "" then k else pre ++ "." ++ k

mutual

def flattenObject : JVal → String → JObj
  | .obj fs, pre => flattenFields fs pre []
  | .arr xs, pre => flattenArrFields xs 0 pre []
  | _, _ => []
termination_by structural v => v

def flattenFields : List (String × JVal) → String → JObj → JObj
  | [], _, out => out
  | (k, value) :: rest, pre, out =>
    flattenFields rest pre (flattenStep value (joinKey pre k) out)
termination_by structural fs => fs

/-- `Object.keys` of an array enumerates the index strings of its
non-hole elements; each is then handled like an object field. -/
def flattenArrFields : List JVal → Nat → String → JObj → JObj
  | [], _, _, out => out
  | item :: rest, i, pre, out =>
    flattenArrFields rest (i + 1) pre
      (if item = .undef then out else flattenStep item (joinKey pre (toString i)) out)

/-- One key of the `Object.keys(obj).forEach` body: recurse into a
plain-object value (`flattenObject value newKey` unfolded one step),
walk an array value by index, assign a scalar directly. -/
def flattenStep : JVal → String → JObj → JObj
  | .obj fs, newKey, out => objAssign out (flattenFields fs newKey [])
  | .arr items, newKey, out => flattenItems items 0 newKey out
  | value, newKey, out => setKey out newKey value

/-- The `value.forEach((item, index) => ...)` body of the array case:
holes are skipped, object-like items are flattened under
`newKey[index]` (`flattenObject` unfolded one step), scalars are
assigned to `newKey[index]`. -/
def flattenItems : List JVal → Nat → String → JObj → JObj
  | [], _, _, out => out
  | item :: rest, i, newKey, out =>
    flattenItems rest (i + 1) newKey
      (match item with
       | .obj fs =>
         objAssign out (flattenFields fs (newKey ++ "[" ++ toString i ++ "]") [])
       | .arr ys =>
         objAssign out (flattenArrFields ys 0 (newKey ++ "[" ++ toString i ++ "]") [])
       | .undef => out
       | x => setKey out (newKey ++ "[" ++ toString i ++ "]") x)

end

/-! ## `findObjectArrayPath` (part_000 lines 119-133) -/

/-- The candidate test of `findObjectArrayPath`: a non-empty array all
of whose elements satisfy `typeof el === 'object' && !Array.isArray(el)`
(so plain objects and `null`; `every` skips holes). -/
def isArrayOfObjects : JVal → Bool
  | .arr xs =>
    !xs.isEmpty && xs.all (fun el => el = .undef || (typeofIsObject el && !isArrayVal el))
  | _ => false
where
  isArrayVal : JVal → Bool
    | .arr _ => true
    | _ => false

mutual

/-- Depth-first search for the first nested array of objects, mirroring
the source: test the candidate predicate first, then descend into plain
objects key by key, skipping a result whose path string is falsy
(`if (found) return found`). -/
def findObjectArrayPath (v : JVal) (currentPath : String) : Option String :=
  if isArrayOfObjects v then some currentPath
  else
    match v with
    | .obj fs => findLoop fs currentPath
    | _ => none

def findLoop : List (String × JVal) → String → Option String
  | [], _ => none
  | (k, val) :: rest, currentPath =>
    match findObjectArrayPath val (joinKey currentPath k) with
    | some found => if found = "" then findLoop rest currentPath else some found
    | none => findLoop rest currentPath

end

/-! ## Dot-path access: `getByPath` and `removePath` (part_000 lines 134-146) -/

/-- `String.prototype.split('.')` on the character list. -/
def splitOnDotChars : List Char → List (List Char)
  | [] => [[]]
  | c :: cs =>
    if c = '.' then [] :: splitOnDotChars cs
    else
      match splitOnDotChars cs with
      | r :: rs => (c :: r) :: rs
      | [] => [[c]]

/-- `path.split('.')`. -/
def splitDots (s : String) : List String :=
  (splitOnDotChars s.data).map (fun cs => String.mk cs)

/-- One step `acc[key]` of the reduce in `getByPath`: own-property read
(prototype-chain members are not modelled and read as `undefined`). -/
def jsGetProp (v : JVal) (key : String) : JVal :=
  match v with
  | .obj fs => getKey fs key
  | .arr xs =>
    if key = "length" then .num xs.length
    else
      match canonicalIndex key with
      | some i => ((xs.get? i).getD .undef)
      | none => .undef
  | .str s =>
    if key = "length" then .num s.length
    else
      match canonicalIndex key with
      | some i =>
        match s.data.get? i with
        | some c => .str (String.mk [c])
        | none => .undef
      | none => .undef
  | _ => JVal.undef

/-- `path.split('.').reduce((acc, key) => (acc ? acc[key] : undefined), obj)`. -/
def getByPath (j : JVal) (path : String) : JVal :=
  (splitDots path).foldl (fun acc key => if jsTruthy acc then jsGetProp acc key else .undef) j

/-- `delete parent[last]` on a truthy object-typed parent: removes an
object field; on an array, a canonical index leaves a hole and the
non-configurable `length` is silently kept (sloppy mode). -/
def deleteOwnProp (v : JVal) (key : String) : JVal :=
  match v with
  | .obj fs => .obj (fs.filter (fun kv => kv.1 ≠ key))
  | .arr xs =>
    if key = "length" then .arr xs
    else
      match canonicalIndex key with
      | some i => .arr (xs.set i .undef)
      | none => .arr xs
  | _ => v

/-- Functional form of `removePath`'s walk: follow the leading path
parts through the value (the same `acc ? acc[key] : undefined` steps)
and apply the delete at the parent when it is truthy and
object-typed. -/
def removeAt (v : JVal) : List String → String → JVal
  | [], last => if jsTruthy v && typeofIsObject v then deleteOwnProp v last else v
  | key :: rest, last =>
    if jsTruthy v then
      match v with
      | .obj fs =>
        (match getKeyG fs key with
         | some child => .obj (updateKey fs key (removeAt child rest last))
         | none => .obj fs)
      | .arr xs =>
        (if key = "length" then .arr xs
         else
           match canonicalIndex key with
           | some i =>
             match xs.get? i with
             | some el => .arr (xs.set i (removeAt el rest last))
             | none => .arr xs
           | none => .arr xs)
      | _ => v
    else v

/-- `removePath(obj, path)`: pop the last split part, walk to the
parent, delete. -/
def removePath (v : JVal) (path : String) : JVal :=
  let parts := splitDots path
  removeAt v parts.dropLast (parts.getLastD "")

/-! ## `JSON.parse(JSON.stringify(·))` deep copy -/

mutual

/-- The deep copy the source takes before removing the array-path
subtree.  On values produced by `JSON.parse` this is the identity;
`undefined` disappears the way `JSON.stringify` drops it (object fields
vanish, array holes become `null`).  The source only applies it to a
plain object. -/
def deepCopy : JVal → JVal
  | .obj fs => .obj (deepCopyFields fs)
  | .arr xs => .arr (deepCopyElems xs)
  | v => v

def deepCopyFields : List (String × JVal) → List (String × JVal)
  | [] => []
  | (k, v) :: rest =>
    if v = .undef then deepCopyFields rest
    else (k, deepCopy v) :: deepCopyFields rest

def deepCopyElems : List JVal → List JVal
  | [] => []
  | v :: rest =>
    (if v = .undef then .null else deepCopy v) :: deepCopyElems rest

end

/-! ## `parseJsonToRows` (part_000 lines 116-185) -/

/-- The re-prefixing loop: `Object.entries(elFlatten)` written onto a
fresh object with keys `` `${arrayPath}.${k}` ``. -/
def prefixEntries (arrayPath : String) (flat : JObj) : JObj :=
  flat.foldl (fun acc kv => setKey acc (arrayPath ++ "." ++ kv.1) kv.2) []

/-- `parseJsonToRows` of part_000.  `Except.error ()` models the
uncaught `TypeError` thrown when `getByPath` does not return an array
(`arr.forEach` on a non-array); `forEach` skips array holes. -/
def parseJsonToRows (json : JVal) : Except Unit (List JObj) :=
  match json with
  | .arr items =>
    .ok ((items.filter (fun it => it ≠ .undef)).map (fun item =>
      if isObjLike item then flattenObject item "" else [("value", item)]))
  | .obj fs =>
    (match findObjectArrayPath (.obj fs) "" with
     | some arrayPath =>
       if arrayPath = "" then .ok [flattenObject (.obj fs) ""]
       else
         match getByPath (.obj fs) arrayPath with
         | .arr elems =>
           let baseObj := removePath (deepCopy (.obj fs)) arrayPath
           let baseFlatten := flattenObject baseObj ""
           .ok ((elems.filter (fun it => it ≠ .undef)).map (fun el =>
             if isObjLike el then
               objAssign (objAssign [] baseFlatten)
                 (prefixEntries arrayPath (flattenObject el ""))
             else setKey (objAssign [] baseFlatten) arrayPath el))
         | _ => .error ()
     | none => .ok [flattenObject (.obj fs) ""])
  | _ => .ok []

/-! ## JavaScript numeric coercion: `parseFloat`, `Number`, `isFinite`

`isNumeric(value)` in the source is
`!isNaN(parseFloat(value)) && isFinite(value)`.  `parseFloat` first
converts its argument to a string and parses the longest numeric
prefix; the global `isFinite` converts its argument with the `Number`
coercion (a full-string parse) and tests for `NaN`/`Infinity`.
Mantissas are exact rationals; the double overflow threshold
`2^1024 - 2^970` (beyond which a parsed literal rounds to `Infinity`)
is modelled, sub-threshold rounding is not — it never changes the
`NaN`/finite classification these claims are about. -/

/-- A JavaScript number as far as classification is concerned. -/
inductive JSNum where
  | nan : JSNum
  | inf (neg : Bool) : JSNum
  | fin (q : ℚ) : JSNum
deriving DecidableEq, Repr

/-- Values at or above this round to `Infinity` when a literal is read. -/
def overflowBound : ℚ := ((2 ^ 1024 - 2 ^ 970 : Nat) : ℚ)

/-- `10 ^ e` over ℚ for an integer exponent (kept in a kernel-friendly
form). -/
def pow10Z (e : Int) : ℚ :=
  if 0 ≤ e then ((10 ^ e.toNat : Nat) : ℚ) else 1 / ((10 ^ (-e).toNat : Nat) : ℚ)

/-- Interpret an exactly-computed literal value as a double. -/
def clampDouble (q : ℚ) : JSNum :=
  if overflowBound ≤ q then .inf false
  else if q ≤ -overflowBound then .inf true
  else .fin q

/-- The ECMAScript whitespace `parseFloat`/`Number` skip (ASCII range
plus no-break space; other Unicode spaces are out of the modelled
range). -/
def jsWhitespace (c : Char) : Bool :=
  c = ' ' || c = '\t' || c = '\n' || c = '\r' || c = '\x0b' || c = '\x0c' || c = ' '

/-- Trim JS whitespace from both ends. -/
def jsTrimChars (cs : List Char) : List Char :=
  ((cs.dropWhile jsWhitespace).reverse.dropWhile jsWhitespace).reverse

/-- `String.prototype.trim()`. -/
def jsTrim (s : String) : String := String.mk (jsTrimChars s.data)

/-- Exponent suffix of a decimal literal: the value contributed by a
(longest-prefix) `e`/`E` exponent, `0` when none parses. -/
def parseExpSuffix (cs : List Char) : Int :=
  match cs with
  | e :: rest =>
    if e = 'e' ∨ e = 'E' then
      let (esign, r2) : Int × List Char :=
        match rest with
        | '-' :: t => (-1, t)
        | '+' :: t => (1, t)
        | _ => (1, rest)
      let ds := (r2.span Char.isDigit).1
      if ds = [] then 0 else esign * (digitsToNat ds : Int)
    else 0
  | [] => 0

/-- Decimal digits before/after the point, as an exact rational. -/
def decMantissa (ip fp : List Char) : ℚ :=
  (digitsToNat ip : ℚ) + (digitsToNat fp : ℚ) / ((10 ^ fp.length : Nat) : ℚ)

/-- `parseFloat` on a character sequence: skip whitespace, optional
sign, accept an `"Infinity"` prefix or the longest decimal-literal
prefix; `NaN` when no digits are found. -/
def parseFloatChars (cs0 : List Char) : JSNum :=
  let cs := cs0.dropWhile jsWhitespace
  let (neg, cs) : Bool × List Char :=
    match cs with
    | '-' :: t => (true, t)
    | '+' :: t => (false, t)
    | _ => (false, cs)
  if cs.take 8 = "Infinity".data then .inf neg
  else
    let (ip, cs1) := cs.span Char.isDigit
    let (fp, cs2) : List Char × List Char :=
      match cs1 with
      | '.' :: t => t.span Char.isDigit
      | _ => ([], cs1)
    if ip = [] ∧ fp = [] then .nan
    else
      let v := decMantissa ip fp * pow10Z (parseExpSuffix cs2)
      clampDouble (if neg then -v else v)

/-- Full-string decimal literal (`Number` coercion): the entire input
must be consumed. -/
def parseDecFull (cs : List Char) : Option ℚ :=
  let (ip, cs1) := cs.span Char.isDigit
  let (fp, cs2) : List Char × List Char :=
    match cs1 with
    | '.' :: t => t.span Char.isDigit
    | _ => ([], cs1)
  if ip = [] ∧ fp = [] then none
  else
    match cs2 with
    | [] => some (decMantissa ip fp)
    | e :: rest =>
      if e = 'e' ∨ e = 'E' then
        let (esign, r2) : Int × List Char :=
          match rest with
          | '-' :: t => (-1, t)
          | '+' :: t => (1, t)
          | _ => (1, rest)
        let (ds, r3) := r2.span Char.isDigit
        if ds = [] ∨ r3 ≠ [] then none
        else some (decMantissa ip fp * pow10Z (esign * (digitsToNat ds : Int)))
      else none

/-- Digit value in a given radix. -/
def radixDigitVal (base : Nat) (c : Char) : Option Nat :=
  let v :=
    if c.isDigit then some (c.toNat - '0'.toNat)
    else if 'a' ≤ c ∧ c ≤ 'f' then some (c.toNat - 'a'.toNat + 10)
    else if 'A' ≤ c ∧ c ≤ 'F' then some (c.toNat - 'A'.toNat + 10)
    else none
  match v with
  | some n => if n < base then some n else none
  | none => none

/-- Full-string radix literal body (after `0x`/`0o`/`0b`). -/
def parseRadixFull (base : Nat) (cs : List Char) : Option Nat :=
  if cs = [] then none
  else
    cs.foldl
      (fun acc c =>
        match acc, radixDigitVal base c with
        | some a, some d => some (a * base + d)
        | _, _ => none)
      (some 0)

/-- The string-to-number part of the `Number` coercion: trim, empty
means `0`, hex/octal/binary literals, otherwise an optionally signed
full-string `Infinity` or decimal literal; anything else is `NaN`. -/
def toNumberString (s : String) : JSNum :=
  let cs := jsTrimChars s.data
  if cs = [] then .fin 0
  else
    let signedDec : List Char → JSNum := fun cs =>
      let (neg, cs') : Bool × List Char :=
        match cs with
        | '-' :: t => (true, t)
        | '+' :: t => (false, t)
        | _ => (false, cs)
      if cs' = "Infinity".data then .inf neg
      else
        match parseDecFull cs' with
        | some q => clampDouble (if neg then -q else q)
        | none => .nan
    match cs with
    | '0' :: c :: rest =>
      if c = 'x' ∨ c = 'X' then
        match parseRadixFull 16 rest with
        | some n => clampDouble (n : ℚ)
        | none => .nan
      else if c = 'o' ∨ c = 'O' then
        match parseRadixFull 8 rest with
        | some n => clampDouble (n : ℚ)
        | none => .nan
      else if c = 'b' ∨ c = 'B' then
        match parseRadixFull 2 rest with
        | some n => clampDouble (n : ℚ)
        | none => .nan
      else signedDec cs
    | _ => signedDec cs

/-! ## `String(·)` conversion -/

/-- Exact decimal expansion: `some (m, k)` with `q = m / 10^k`, `k`
minimal; `none` when the denominator has a factor other than 2 and 5
(no IEEE double does). -/
def ratDecimalAux : ℚ → Nat → Option (Int × Nat)
  | q, 0 => if q.den = 1 then some (q.num, 0) else none
  | q, fuel + 1 =>
    if q.den = 1 then some (q.num, 0)
    else (ratDecimalAux (q * 10) fuel).map (fun p => (p.1, p.2 + 1))

/-- Render `m / 10^k` as a plain decimal string. -/
def renderDecimal (m : Int) (k : Nat) : String :=
  if k = 0 then toString m
  else
    let ds := (toString m.natAbs).data
    let ds := List.replicate (k + 1 - ds.length) '0' ++ ds
    (if m < 0 then "-" else "") ++
      String.mk (ds.take (ds.length - k)) ++ "." ++ String.mk (ds.drop (ds.length - k))

/-- `String(q)` for a number: integers print as integers, other values
as their exact finite decimal expansion (JS prints the shortest
round-trip decimal of the double; for the values exercised here the
two agree, and nothing proved below depends on the corner where they
would not). -/
def numToString (q : ℚ) : String :=
  if q.den = 1 then toString q.num
  else
    match ratDecimalAux q 400 with
    | some (m, k) => renderDecimal m k
    | none => toString q.num ++ "/" ++ toString q.den

mutual

/-- The `String(·)` / `ToString` coercion: `Array.prototype.toString`
joins element strings with commas (`null`/`undefined` elements print
as empty), plain objects print as `[object Object]`. -/
def jsToString : JVal → String
  | .null => "null"
  | .undef => "undefined"
  | .bool b => if b then "true" else "false"
  | .num q => numToString q
  | .str s => s
  | .arr xs => joinComma xs
  | .obj _ => "[object Object]"

def joinComma : List JVal → String
  | [] => ""
  | [v] =>
    (match v with
     | .null => ""
     | .undef => ""
     | x => jsToString x)
  | v :: rest =>
    (match v with
     | .null => ""
     | .undef => ""
     | x => jsToString x) ++ "," ++ joinComma rest

end

/-- `parseFloat(value)`: `ToString` then longest-prefix float parse. -/
def parseFloatJS (value : JVal) : JSNum := parseFloatChars (jsToString value).data

/-- The `Number` coercion `ToNumber(value)` used by global `isFinite`. -/
def toNumber : JVal → JSNum
  | .undef => .nan
  | .null => .fin 0
  | .bool b => .fin (if b then 1 else 0)
  | .num q => .fin q
  | .str s => toNumberString s
  | .arr xs => toNumberString (jsToString (.arr xs))
  | .obj fs => toNumberString (jsToString (.obj fs))

def isNaNJS : JSNum → Bool
  | .nan => true
  | _ => false

def isFiniteNum : JSNum → Bool
  | .fin _ => true
  | _ => false

/-- `isNumeric(value)` (part_000 lines 267-269 and script.js lines
174-176): `!isNaN(parseFloat(value)) && isFinite(value)`, the global
`isFinite` applying the `Number` coercion to the original value. -/
def isNumeric (value : JVal) : Bool :=
  !isNaNJS (parseFloatJS value) && isFiniteNum (toNumber value)

/-! ## `groupRowsByKey` (part_000 lines 355-362, script.js 262-269) -/

/-- `rows.reduce((acc, row) => { const group = row[key];
if (!acc[group]) acc[group] = []; acc[group].push(row); return acc; }, {})`.
The accumulator is a JS object, so the group value is coerced to a
property key with `String(·)` and the mapping sits in JS property
order. -/
def groupRowsByKey (rows : List JObj) (key : String) : List (String × List JObj) :=
  rows.foldl
    (fun acc row =>
      let group := jsToString (getKey row key)
      match getKeyG acc group with
      | none => setKey acc group [row]
      | some l => setKey acc group (l ++ [row]))
    []

/-! ## `parseXmlToRows` (part_000 lines 43-79)

`DOMParser` itself is a browser dependency; the embedding starts from
the parsed element tree.  `textContent` concatenates all descendant
text in document order; `children` enumerates element children only. -/

inductive XNode where
  | elem (tag : String) (attrs : List (String × String)) (children : List XNode)
  | text (s : String)
deriving Repr

mutual

def textContent : XNode → String
  | .text s => s
  | .elem _ _ cs => textContentList cs

def textContentList : List XNode → String
  | [] => ""
  | c :: rest => textContent c ++ textContentList rest

end

def isElemNode : XNode → Bool
  | .elem _ _ _ => true
  | .text _ => false

/-- One grandchild write: `rowObj[sub.tagName] = sub.textContent?.trim()`. -/
def xmlFieldStep (acc : JObj) : XNode → JObj
  | .elem t a cs => setKey acc t (.str (jsTrim (textContent (.elem t a cs))))
  | .text _ => acc

/-- `node.children`: element children only. -/
def childElements (ns : List XNode) : List XNode := ns.filter isElemNode

/-- The candidate row built for one direct child of the document root:
attributes first (name → string value), then one key per grandchild
element (tag name → trimmed text, last wins), or the child's own tag
name → its trimmed text when it has no element children and the text
is non-empty. -/
def xmlRow : XNode → JObj
  | .text _ => []
  | .elem tag attrs children =>
    let rowObj := attrs.foldl (fun acc a => setKey acc a.1 (.str a.2)) []
    let subs := childElements children
    if subs.length > 0 then
      subs.foldl xmlFieldStep rowObj
    else
      let t := jsTrim (textContent (.elem tag attrs children))
      if t ≠ "" then setKey rowObj tag (.str t) else rowObj

/-- `parseXmlToRows` after a successful parse: one candidate row per
direct child element of the document root, empty candidates dropped. -/
def parseXmlToRows (root : XNode) : List JObj :=
  let children :=
    match root with
    | .elem _ _ cs => childElements cs
    | .text _ => []
  (children.map xmlRow).filter (fun r => r ≠ [])

/-! ## Extension dispatch and `handleFile` (part_000 lines 31-35, 188-236) -/

/-- The character list after the last `'.'`, `none` when there is no
dot (`name.lastIndexOf('.') === -1`). -/
def extAfterLastDot : List Char → Option (List Char)
  | [] => none
  | c :: cs =>
    match extAfterLastDot cs with
    | some r => some r
    | none => if c = '.' then some cs else none

/-- ASCII `toLowerCase`. -/
def asciiToLower (c : Char) : Char :=
  if 'A' ≤ c ∧ c ≤ 'Z' then Char.ofNat (c.toNat + 32) else c

/-- `getFileExtension`: lowercased substring after the last dot, empty
when there is none. -/
def getFileExtension (name : String) : String :=
  match extAfterLastDot name.data with
  | none => ""
  | some cs => String.mk (cs.map asciiToLower)

/-- The ingestion errors a load attempt can end with. -/
inductive LoadError where
  | unsupportedFileType : LoadError
  | xmlParseError : LoadError
  | jsonSyntaxError : LoadError
  | jsonPipelineError : LoadError
deriving DecidableEq, Repr

/-- The external parsers `handleFile` delegates to: PapaParse (the
boolean is `ext === 'tsv'`, forcing the tab delimiter), `JSON.parse`,
and `DOMParser` (whose `parsererror` outcome is the `error` case). -/
structure Oracles where
  papaParse : Bool → String → List JObj
  jsonParse : String → Except Unit JVal
  xmlParse : String → Except Unit XNode

/-- The parsing part of `handleFile`'s `onload` body: extension
dispatch to one of the three adapters, or failure. -/
def loadRows (O : Oracles) (name content : String) : Except LoadError (List JObj) :=
  let ext := getFileExtension name
  if ext = "csv" ∨ ext = "tsv" ∨ ext = "txt" then
    .ok (O.papaParse (ext = "tsv") content)
  else if ext = "json" then
    match O.jsonParse content with
    | .ok json =>
      match parseJsonToRows json with
      | .ok rows => .ok rows
      | .error _ => .error .jsonPipelineError
    | .error _ => .error .jsonSyntaxError
  else if ext = "xml" then
    match O.xmlParse content with
    | .ok doc => .ok (parseXmlToRows doc)
    | .error _ => .error .xmlParseError
  else .error .unsupportedFileType

/-- The published table and the selection state (`parsedRows`, `xKey`,
`yKey`, `groupKey`). -/
structure SessionState where
  parsedRows : List JObj
  xKey : Option String
  yKey : Option String
  groupKey : Option String
deriving DecidableEq, Repr

/-- The state transition of `handleFile`'s `onload` body: on success
the rows are published and the selection keys reset; every `throw`
lands in the `catch` (which only logs and alerts), leaving the state
untouched. -/
def handleFileUpdate (O : Oracles) (st : SessionState) (name content : String) :
    SessionState :=
  match loadRows O name content with
  | .ok rows => { parsedRows := rows, xKey := none, yKey := none, groupKey := none }
  | .error _ => st

/-! ## Document well-formedness used in hypotheses -/

mutual

/-- No `undefined` anywhere (every `JSON.parse` result satisfies this). -/
def noUndefB : JVal → Bool
  | .undef => false
  | .arr xs => noUndefList xs
  | .obj fs => noUndefFields fs
  | _ => true

def noUndefList : List JVal → Bool
  | [] => true
  | x :: xs => noUndefB x && noUndefList xs

def noUndefFields : List (String × JVal) → Bool
  | [] => true
  | (_, v) :: fs => noUndefB v && noUndefFields fs

end

/-- A key the dot-path machinery round-trips: non-empty and free of
`'.'`. -/
def goodKey (k : String) : Bool := k ≠ "" && !k.data.contains '.'

mutual

/-- Every object key in the document is non-empty and dot-free. -/
def goodKeysB : JVal → Bool
  | .obj fs => goodKeysFields fs
  | .arr xs => goodKeysList xs
  | _ => true

def goodKeysList : List JVal → Bool
  | [] => true
  | x :: xs => goodKeysB x && goodKeysList xs

def goodKeysFields : List (String × JVal) → Bool
  | [] => true
  | (k, v) :: fs => goodKey k && goodKeysB v && goodKeysFields fs

end

/-! ## A heap model for the mutation claim

The value-level embedding above is pure, so it cannot even express
"`parseJsonToRows` does not mutate its input".  This small heap model
makes the two impure steps of the source explicit: the deep copy
(fresh allocations) and `removePath`'s `delete` (one in-place node
write).  Everything else in `parseJsonToRows` only reads, so the row
result is computed by reading the document back out of the heap and
running the (already verified against the source) pure functions. -/

/-- A heap value: a primitive, or a reference to an object/array node. -/
inductive HVal where
  | hnull : HVal
  | hundef : HVal
  | hbool (b : Bool) : HVal
  | hnum (q : ℚ) : HVal
  | hstr (s : String) : HVal
  | href (a : Nat) : HVal
deriving DecidableEq, Repr

/-- A mutable node: an object body or an array body. -/
inductive HNode where
  | hobj (fields : List (String × HVal)) : HNode
  | harr (elems : List HVal) : HNode
deriving DecidableEq, Repr

/-- The mutable store: addressed nodes plus the next fresh address. -/
structure Heap where
  mem : List (Nat × HNode)
  next : Nat
deriving DecidableEq, Repr

def lookupH (h : Heap) (a : Nat) : Option HNode :=
  (h.mem.find? (fun p => p.1 = a)).map (fun p => p.2)

def writeH (h : Heap) (a : Nat) (n : HNode) : Heap :=
  ⟨h.mem.map (fun p => if p.1 = a then (a, n) else p), h.next⟩

def allocH (h : Heap) (n : HNode) : Heap × Nat :=
  (⟨(h.next, n) :: h.mem, h.next + 1⟩, h.next)

/-- Read a document back out of the heap (fuel bounds the depth; a
dangling or too-deep reference reads as `undef`). -/
def readBackH : Nat → Heap → HVal → JVal
  | _, _, .hnull => .null
  | _, _, .hundef => .undef
  | _, _, .hbool b => .bool b
  | _, _, .hnum q => .num q
  | _, _, .hstr s => .str s
  | 0, _, .href _ => .undef
  | fuel + 1, h, .href a =>
    match lookupH h a with
    | some (.hobj fs) => .obj (fs.map (fun kv => (kv.1, readBackH fuel h kv.2)))
    | some (.harr xs) => .arr (xs.map (fun v => readBackH fuel h v))
    | none => .undef

mutual

/-- `JSON.parse(JSON.stringify(·))` on the heap: fresh nodes are
allocated for the whole copied structure; `undefined` object fields
are dropped and `undefined`/hole array elements become `null`, as
`JSON.stringify` does.  Fuel bounds the work (one unit per structure
step; JSON documents are acyclic, so some fuel suffices); an exhausted
copy degenerates to `null`/truncation and still allocates only fresh
nodes, which is all the mutation claim needs. -/
def deepCopyH : Nat → Heap → HVal → Heap × HVal
  | _, h, .hnull => (h, .hnull)
  | _, h, .hundef => (h, .hundef)
  | _, h, .hbool b => (h, .hbool b)
  | _, h, .hnum q => (h, .hnum q)
  | _, h, .hstr s => (h, .hstr s)
  | 0, h, .href _ => (h, .hnull)
  | fuel + 1, h, .href a =>
    match lookupH h a with
    | some (.hobj fs) =>
      let r1 := deepCopyFieldsH fuel h fs
      let r2 := allocH r1.1 (.hobj r1.2)
      (r2.1, .href r2.2)
    | some (.harr xs) =>
      let r1 := deepCopyElemsH fuel h xs
      let r2 := allocH r1.1 (.harr r1.2)
      (r2.1, .href r2.2)
    | none => (h, .hnull)
termination_by structural fuel _ _ => fuel

def deepCopyFieldsH : Nat → Heap → List (String × HVal) → Heap × List (String × HVal)
  | _, h, [] => (h, [])
  | 0, h, _ :: _ => (h, [])
  | fuel + 1, h, (k, v) :: rest =>
    if v = .hundef then deepCopyFieldsH fuel h rest
    else
      let r1 := deepCopyH fuel h v
      let r2 := deepCopyFieldsH fuel r1.1 rest
      (r2.1, (k, r1.2) :: r2.2)
termination_by structural fuel _ _ => fuel

def deepCopyElemsH : Nat → Heap → List HVal → Heap × List HVal
  | _, h, [] => (h, [])
  | 0, h, _ :: _ => (h, [])
  | fuel + 1, h, v :: rest =>
    let r1 := if v = .hundef then (h, HVal.hnull) else deepCopyH fuel h v
    let r2 := deepCopyElemsH fuel r1.1 rest
    (r2.1, r1.2 :: r2.2)
termination_by structural fuel _ _ => fuel

end

/-- JavaScript truthiness of a heap value (references are objects or
arrays, hence truthy). -/
def hTruthy : HVal → Bool
  | .hnull => false
  | .hundef => false
  | .hbool b => b
  | .hnum q => q ≠ 0
  | .hstr s => s ≠ ""
  | .href _ => true

/-- One step `acc[key]` of `removePath`'s reduce, on the heap. -/
def hGetProp (h : Heap) (v : HVal) (key : String) : HVal :=
  match v with
  | .href a =>
    match lookupH h a with
    | some (.hobj fs) =>
      (match fs.find? (fun kv => kv.1 = key) with
       | some kv => kv.2
       | none => .hundef)
    | some (.harr xs) =>
      if key = "length" then .hnum xs.length
      else
        match canonicalIndex key with
        | some i => (xs.get? i).getD .hundef
        | none => .hundef
    | none => .hundef
  | .hstr s =>
    if key = "length" then .hnum s.length
    else
      match canonicalIndex key with
      | some i =>
        match s.data.get? i with
        | some c => .hstr (String.mk [c])
        | none => .hundef
      | none => .hundef
  | _ => HVal.hundef

/-- `removePath(obj, path)` on the heap: walk the leading split parts
from `v`, and when the parent is truthy and object-typed (a reference)
perform the `delete` as one node write — an object field disappears, an
array slot becomes a hole, `length` survives (sloppy mode). -/
def removePathH (h : Heap) (v : HVal) (path : String) : Heap :=
  let parts := splitDots path
  let parent :=
    parts.dropLast.foldl (fun acc key => if hTruthy acc then hGetProp h acc key else .hundef) v
  let last := parts.getLastD ""
  match parent with
  | .href a =>
    match lookupH h a with
    | some (.hobj fs) => writeH h a (.hobj (fs.filter (fun kv => kv.1 ≠ last)))
    | some (.harr xs) =>
      if last = "length" then h
      else
        match canonicalIndex last with
        | some i => writeH h a (.harr (xs.set i .hundef))
        | none => h
    | none => h
  | _ => h

/-- The heap effect of `parseJsonToRows` on a document rooted at `v`:
only the array-path branch touches the heap — it deep-copies the
document and deletes the array-path subtree from the copy (the
source's `TypeError` on a non-array `getByPath` result fires after
both steps, so they happen on the error path too).  Every other branch
only reads. -/
def parseJsonHeapSteps (fuel : Nat) (h : Heap) (v : HVal) : Heap :=
  match readBackH fuel h v with
  | .obj fs =>
    (match findObjectArrayPath (.obj fs) "" with
     | some arrayPath =>
       if arrayPath = "" then h
       else
         let r := deepCopyH fuel h v
         removePathH r.1 r.2 arrayPath
     | none => h)
  | _ => h

/-- `parseJsonToRows` over the heap: the resulting heap, and the rows
computed by the pure pipeline on the read-back document. -/
def parseJsonToRowsH (fuel : Nat) (h : Heap) (v : HVal) :
    Heap × Except Unit (List JObj) :=
  (parseJsonHeapSteps fuel h v, parseJsonToRows (readBackH fuel h v))

/-- Addresses referenced from a node's body. -/
def nodeRefs : HNode → List Nat
  | .hobj fs =>
    fs.filterMap (fun kv =>
      match kv.2 with
      | .href a => some a
      | _ => none)
  | .harr xs =>
    xs.filterMap (fun v =>
      match v with
      | .href a => some a
      | _ => none)

/-- A well-formed heap: every stored address and every reference is
below `next`. -/
def wfHeapB (h : Heap) : Bool :=
  h.mem.all (fun p => p.1 < h.next && (nodeRefs p.2).all (fun r => r < h.next))

/-- The references of a single heap value are below `n`. -/
def hValBelow (n : Nat) : HVal → Bool
  | .href a => a < n
  | _ => true

/-! ## Spec-side formulations

These definitions follow the wording of the specification (not the
source); the theorems below compare them with the source embedding. -/

mutual

/-- The pre-order, field-order enumeration of all dot-paths of a
document (the traversal the spec's array-path rule quantifies over);
the path name is built exactly as the source builds it. -/
def dfsEnum (v : JVal) (cur : String) : List (String × JVal) :=
  (cur, v) ::
    (match v with
     | .obj fs => dfsEnumFields fs cur
     | _ => [])

def dfsEnumFields : List (String × JVal) → String → List (String × JVal)
  | [], _ => []
  | (k, val) :: rest, cur => dfsEnum val (joinKey cur k) ++ dfsEnumFields rest cur

end

/-- The spec's candidate predicate, read literally: a non-empty array
all of whose elements are plain objects (not arrays) — `null` is not a
plain object. -/
def specIsArrayOfPlainObjects : JVal → Bool
  | .arr xs => !xs.isEmpty && xs.all isPlainObject
  | _ => false

/-- "The first path reached in a depth-first, key-order (pre-order,
first match wins) traversal whose value is a non-empty array all of
whose elements are plain objects (not arrays)" — the spec's chooser. -/
def specFirstArrayPath (json : JVal) : Option String :=
  ((dfsEnum json "").find? (fun pr => specIsArrayOfPlainObjects pr.2)).map Prod.fst

/-- The chooser the source actually implements, phrased over the same
enumeration: first match wins for the source's candidate test, a match
with an empty path name being skipped. -/
def codeFirstArrayPath (json : JVal) : Option String :=
  ((dfsEnum json "").find? (fun pr => pr.1 ≠ "" && isArrayOfObjects pr.2)).map Prod.fst

/-- Dot-join a chain of keys (path names as the spec writes them). -/
def dotJoin : List String → String
  | [] => ""
  | [k] => k
  | k :: rest => k ++ "." ++ dotJoin rest

/-- Resolve a chain of object keys from a value. -/
def lookupChain : JVal → List String → Option JVal
  | v, [] => some v
  | .obj fs, k :: rest =>
    (match getKeyG fs k with
     | some w => lookupChain w rest
     | none => none)
  | _, _ :: _ => none

/-- "The root object with the subtree at `P` removed", as the spec
describes the base object: remove the field at the end of the key
chain. -/
def specRemoveChain : JVal → List String → JVal
  | .obj fs, [k] => .obj (fs.filter (fun kv => kv.1 ≠ k))
  | .obj fs, k :: k2 :: rest =>
    .obj (fs.map (fun kv =>
      if kv.1 = k then (k, specRemoveChain kv.2 (k2 :: rest)) else kv))
  | v, _ => v

/-- The row built for one element of the array at path `p`: the base
fields, then (for an object-like element) the element's flattening
with every key re-prefixed by `p.`, or (for a scalar element) the key
`p` mapped directly to the element. -/
def specRowFor (base : JObj) (p : String) (e : JVal) : JObj :=
  if isObjLike e then
    objAssign (objAssign [] base) (prefixEntries p (flattenObject e ""))
  else setKey (objAssign [] base) p e

/-- The group keys in the order they are discovered while scanning
(the spec's "first-seen order"). -/
def firstSeenGroups (rows : List JObj) (key : String) : List String :=
  rows.foldl
    (fun seen row =>
      let g := jsToString (getKey row key)
      if g ∈ seen then seen else seen ++ [g])
    []

/-- The last grandchild element carrying tag `t` (the one whose text
wins under last-wins assignment). -/
def lastElemWithTag (subs : List XNode) (t : String) : Option XNode :=
  subs.reverse.find? (fun sub =>
    match sub with
    | .elem tg _ _ => tg = t
    | .text _ => false)

/-- Whether a key is an array-index-like property key. -/
def isIndexKey (k : String) : Bool := (canonicalIndex k).isSome

/-- The folded path string the search builds from `cur` through a
chain of keys. -/
def extendPath (cur : String) (chain : List String) : String :=
  chain.foldl joinKey cur

/-! ## Concrete documents used in examples and counterexamples -/

/-- The spec's weather-style example document
`{"city":"X","readings":[{"t":1,"v":10},{"t":2,"v":20}]}`. -/
def exampleDoc : JVal :=
  .obj [("city", .str "X"),
        ("readings", .arr [.obj [("t", .num 1), ("v", .num 10)],
                           .obj [("t", .num 2), ("v", .num 20)]])]

/-- A valid JSON document whose only object key contains a dot:
`{"a.b":[{"x":1}]}`. -/
def dottedKeyDoc : JVal := .obj [("a.b", .arr [.obj [("x", .num 1)]])]

/-- `{"a":[null],"b":[{"x":1}]}`: the first array contains only `null`
(not a plain object), the second contains a plain object. -/
def nullElemDoc : JVal :=
  .obj [("a", .arr [.null]), ("b", .arr [.obj [("x", .num 1)]])]

/-- Rows whose group values are the array-index-like strings `"10"`
and `"2"`. -/
def numericGroupRows : List JObj := [[("g", .str "10")], [("g", .str "2")]]

/-- The spec's grouping example `[{g:"b"},{g:"a"},{g:"b"}]`. -/
def groupExampleRows : List JObj :=
  [[("g", .str "b")], [("g", .str "a")], [("g", .str "b")]]

/-- The spec's XML example
`<root><item id="1"><name>A</name></item><item id="2"><name>B</name></item></root>`. -/
def exampleXml : XNode :=
  .elem "root" []
    [.elem "item" [("id", "1")] [.elem "name" [] [.text "A"]],
     .elem "item" [("id", "2")] [.elem "name" [] [.text "B"]]]

/-- The example heap: `exampleDoc` laid out as four nodes. -/
def exampleHeap : Heap :=
  ⟨[(0, .hobj [("city", .hstr "X"), ("readings", .href 1)]),
    (1, .harr [.href 2, .href 3]),
    (2, .hobj [("t", .hnum 1), ("v", .hnum 10)]),
    (3, .hobj [("t", .hnum 2), ("v", .hnum 20)])], 4⟩


/-! ## Predicates used by the theorems -/

/-- Fields are pairwise in JS key order. -/
abbrev keysPairwise {α : Type} (o : List (String × α)) : Prop :=
  List.Pairwise (fun x y => keyBefore x.1 y.1 = true) o

/-- A well-formed object body: distinct keys, JS key order. -/
abbrev wfObj {α : Type} (o : List (String × α)) : Prop :=
  (o.map Prod.fst).Nodup ∧ keysPairwise o

/-- Every value in the row is a scalar (string, number, boolean, null). -/
abbrev allScalarVals (o : JObj) : Prop := ∀ kv ∈ o, isScalar kv.2 = true

/-- The row an array-rooted document contributes for one element. -/
def rootArrayRow (item : JVal) : JObj :=
  if isObjLike item then flattenObject item "" else [("value", item)]

/-- Every node stored at address `≥ n` references only addresses `≥ n`
(the freshly copied region is closed). -/
def ClosedFrom (n : Nat) (h : Heap) : Prop :=
  ∀ a node, n ≤ a → lookupH h a = some node → ∀ r ∈ nodeRefs node, n ≤ r

/-- Every stored node references only addresses `< n`. -/
def ClosedBelow (n : Nat) (h : Heap) : Prop :=
  ∀ a node, lookupH h a = some node → ∀ r ∈ nodeRefs node, r < n

/-- The references of a heap value are at or above `n`. -/
def hValGe (n : Nat) : HVal → Prop
  | .href a => n ≤ a
  | _ => True

/-- The heap invariant the copy phase maintains: the region at or above
`n` may only grow, every stored address is below the allocation bound,
and the region at or above `n` is closed. -/
def HeapInv (n : Nat) (h : Heap) : Prop :=
  n ≤ h.next ∧ (∀ p ∈ h.mem, p.1 < h.next) ∧ ClosedFrom n h

/-- Oracles whose parsers all fail (for error-path witnesses). -/
def failOracles : Oracles :=
  ⟨fun _ _ => [], fun _ => .error (), fun _ => .error ()⟩

/-- A previously loaded session state (for error-path witnesses). -/
def prevState : SessionState :=
  ⟨[[("a", .num 1)]], some "a", some "a", none⟩

/-! # Theorems

## Toolbox: the object model -/

theorem getKeyG_eq_none_iff {a : Type} (o : List (String × a)) (k : String) :
    getKeyG o k = none ↔ k ∉ o.map Prod.fst := by
  induction o with
  | nil => simp [getKeyG]
  | cons kv rest ih =>
    obtain ⟨k0, v0⟩ := kv
    by_cases h : k0 = k
    · subst h
      simp [getKeyG]
    · simp [getKeyG, h, ih, Ne.symm h]

theorem anyKey_eq_isSome {a : Type} (o : List (String × a)) (k : String) :
    (o.any (fun kv => kv.1 = k)) = (getKeyG o k).isSome := by
  induction o with
  | nil => simp [getKeyG]
  | cons kv rest ih =>
    obtain ⟨k0, v0⟩ := kv
    by_cases h : k0 = k <;> simp [getKeyG, h, ih]

theorem getKeyG_updateKey {a : Type} (o : List (String × a)) (k : String) (v : a)
    (g : String) (hmem : (getKeyG o k).isSome) :
    getKeyG (updateKey o k v) g = if k = g then some v else getKeyG o g := by
  induction o with
  | nil => simp [getKeyG] at hmem
  | cons kv rest ih =>
    obtain ⟨k0, v0⟩ := kv
    by_cases h0 : k0 = k
    · subst h0
      by_cases hg : k0 = g <;> simp [updateKey, getKeyG, hg]
    · have hmem' : (getKeyG rest k).isSome := by
        simpa [getKeyG, h0] using hmem
      by_cases hg : k0 = g
      · subst hg
        have : ¬k = k0 := fun h => h0 h.symm
        simp [updateKey, getKeyG, h0, this, ih hmem']
      · simp [updateKey, getKeyG, h0, hg, ih hmem']

theorem getKeyG_insertIndexKey {a : Type} (o : List (String × a)) (k : String)
    (i : Nat) (v : a) (g : String) (hk : canonicalIndex k = some i) :
    getKeyG (insertIndexKey o k i v) g = if k = g then some v else getKeyG o g := by
  induction o with
  | nil => simp [insertIndexKey, getKeyG]
  | cons kv rest ih =>
    obtain ⟨k0, v0⟩ := kv
    simp only [insertIndexKey]
    cases h0 : canonicalIndex k0 with
    | some j =>
      by_cases hj : j < i
      · have hk0 : k0 ≠ k := by
          intro he; rw [he, hk] at h0
          cases h0; omega
        by_cases hg : k0 = g
        · subst hg
          have : ¬k = k0 := fun h => hk0 h.symm
          simp [getKeyG, hj, this]
        · simp [getKeyG, hj, hg, ih]
      · by_cases hg : k = g <;> simp [getKeyG, hj, hg]
    | none =>
      by_cases hg : k = g <;> simp [getKeyG, hg]

theorem getKeyG_setKey {a : Type} (o : List (String × a)) (k : String) (v : a)
    (g : String) :
    getKeyG (setKey o k v) g = if k = g then some v else getKeyG o g := by
  unfold setKey
  by_cases hmem : o.any (fun kv => kv.1 = k)
  · rw [if_pos hmem]
    rw [anyKey_eq_isSome] at hmem
    exact getKeyG_updateKey o k v g hmem
  · rw [if_neg hmem]
    rw [anyKey_eq_isSome] at hmem
    have hnone : getKeyG o k = none := by
      cases ho : getKeyG o k <;> simp_all
    cases hci : canonicalIndex k with
    | some i => exact getKeyG_insertIndexKey o k i v g hci
    | none =>
      induction o with
      | nil => by_cases hg : k = g <;> simp [getKeyG, hg]
      | cons kv rest ihh =>
        obtain ⟨k0, v0⟩ := kv
        have hk0 : k0 ≠ k := by
          intro he
          rw [he] at hnone
          simp [getKeyG] at hnone
        have hrest : getKeyG rest k = none := by
          simpa [getKeyG, hk0] using hnone
        by_cases hg : k0 = g
        · subst hg
          have : ¬k = k0 := fun h => hk0 h.symm
          simp [getKeyG, this]
        · simp [getKeyG, hg]
          exact ihh (by simpa [getKeyG, hk0] using hmem) hrest

theorem insertIndexKey_perm {a : Type} (o : List (String × a)) (k : String)
    (i : Nat) (v : a) : List.Perm (insertIndexKey o k i v) ((k, v) :: o) := by
  induction o with
  | nil => rfl
  | cons kv rest ih =>
    obtain ⟨k0, v0⟩ := kv
    simp only [insertIndexKey]
    cases h0 : canonicalIndex k0 with
    | some j =>
      by_cases hj : j < i
      · simp only [if_pos hj]
        exact (List.Perm.cons (k0, v0) ih).trans (List.Perm.swap (k, v) (k0, v0) rest)
      · simp [hj]
    | none => simp
  

theorem setKey_perm_of_fresh {a : Type} (o : List (String × a)) (k : String) (v : a)
    (h : getKeyG o k = none) : List.Perm (setKey o k v) ((k, v) :: o) := by
  unfold setKey
  have hany : o.any (fun kv => kv.1 = k) = false := by
    rw [anyKey_eq_isSome, h]; rfl
  rw [hany]
  simp only [Bool.false_eq_true, if_false]
  cases hci : canonicalIndex k with
  | some i => exact insertIndexKey_perm o k i v
  | none => exact List.perm_append_singleton (k, v) o

theorem mem_updateKey {a : Type} {o : List (String × a)} {k : String} {v : a} {x} :
    x ∈ updateKey o k v → x = (k, v) ∨ x ∈ o := by
  induction o with
  | nil => simp [updateKey]
  | cons kv rest ih =>
    obtain ⟨k0, v0⟩ := kv
    by_cases h0 : k0 = k
    · simp [updateKey, h0]
      tauto
    · simp only [updateKey, if_neg h0, List.mem_cons]
      rintro (rfl | hx)
      · tauto
      · rcases ih hx with h | h <;> tauto

theorem mem_setKey {a : Type} {o : List (String × a)} {k : String} {v : a} {x} :
    x ∈ setKey o k v → x = (k, v) ∨ x ∈ o := by
  unfold setKey
  by_cases hmem : o.any (fun kv => kv.1 = k)
  · rw [if_pos hmem]; exact mem_updateKey
  · rw [if_neg hmem]
    cases hci : canonicalIndex k with
    | some i =>
      intro hx
      have := (insertIndexKey_perm o k i v).mem_iff.mp hx
      simpa using this
    | none =>
      intro hx
      rcases List.mem_append.mp hx with h | h
      · tauto
      · simp at h; tauto

theorem keyBefore_trans {x y z : String} (h1 : keyBefore x y = true)
    (h2 : keyBefore y z = true) : keyBefore x z = true := by
  unfold keyBefore at *
  cases hx : canonicalIndex x <;> cases hy : canonicalIndex y <;>
    cases hz : canonicalIndex z <;> (simp_all; try omega)

/-! ### Injectivity of canonical index strings -/

theorem digitsToNat_foldl (cs : List Char) (n : Nat) :
    cs.foldl (fun acc c => acc * 10 + (c.toNat - '0'.toNat)) n =
      n * 10 ^ cs.length + digitsToNat cs := by
  induction cs generalizing n with
  | nil => simp [digitsToNat]
  | cons c rest ih =>
    show List.foldl _ (n * 10 + (c.toNat - '0'.toNat)) rest = _
    rw [ih]
    have hd : digitsToNat (c :: rest) =
        (c.toNat - '0'.toNat) * 10 ^ rest.length + digitsToNat rest := by
      show List.foldl _ (0 * 10 + (c.toNat - '0'.toNat)) rest = _
      rw [ih]; ring_nf
    rw [hd]
    simp only [List.length_cons, Nat.pow_succ]
    ring_nf

theorem digitsToNat_append_singleton (cs : List Char) (c : Char) :
    digitsToNat (cs ++ [c]) = 10 * digitsToNat cs + (c.toNat - '0'.toNat) := by
  show List.foldl _ 0 (cs ++ [c]) = _
  rw [List.foldl_append]
  show digitsToNat cs * 10 + _ = _
  ring

theorem digit_val_lt {c : Char} (h : c.isDigit = true) : c.toNat - '0'.toNat < 10 := by
  simp only [Char.isDigit, Bool.and_eq_true, decide_eq_true_eq] at h
  obtain ⟨h1, h2⟩ := h
  have b1 : 48 ≤ c.toNat := by exact_mod_cast h1
  have b2 : c.toNat ≤ 57 := by exact_mod_cast h2
  have h0 : ('0' : Char).toNat = 48 := by decide
  omega

theorem digit_toNat_ge {c : Char} (h : c.isDigit = true) : 48 ≤ c.toNat := by
  simp only [Char.isDigit, Bool.and_eq_true, decide_eq_true_eq] at h
  exact_mod_cast h.1

theorem char_eq_of_toNat_eq {c d : Char} (h : c.toNat = d.toNat) : c = d := by
  apply Char.ext
  apply UInt32.eq_of_toBitVec_eq
  apply BitVec.eq_of_toNat_eq
  simpa [Char.toNat, UInt32.toNat] using h

theorem digit_pos {c : Char} (h : c.isDigit = true) (h0 : c ≠ '0') :
    1 ≤ c.toNat - '0'.toNat := by
  have b1 := digit_toNat_ge h
  have hne : c.toNat ≠ ('0' : Char).toNat := fun he => h0 (char_eq_of_toNat_eq he)
  have : ('0' : Char).toNat = 48 := by decide
  omega

theorem digitsToNat_cons (c : Char) (rest : List Char) :
    digitsToNat (c :: rest) =
      (c.toNat - '0'.toNat) * 10 ^ rest.length + digitsToNat rest := by
  show List.foldl _ (0 * 10 + (c.toNat - '0'.toNat)) rest = _
  rw [digitsToNat_foldl]; ring_nf

theorem digitsToNat_lt (cs : List Char) (h : ∀ c ∈ cs, c.isDigit = true) :
    digitsToNat cs < 10 ^ cs.length := by
  induction cs with
  | nil => simp [digitsToNat]
  | cons c rest ih =>
    have hc := digit_val_lt (h c (by simp))
    have hr := ih (fun c hc => h c (by simp [hc]))
    rw [digitsToNat_cons]
    have hp : (0:Nat) < 10 ^ rest.length := Nat.pos_pow_of_pos _ (by norm_num)
    calc (c.toNat - '0'.toNat) * 10 ^ rest.length + digitsToNat rest
        < (c.toNat - '0'.toNat) * 10 ^ rest.length + 10 ^ rest.length := by omega
      _ = ((c.toNat - '0'.toNat) + 1) * 10 ^ rest.length := by ring
      _ ≤ 10 * 10 ^ rest.length := by
          have : (c.toNat - '0'.toNat) + 1 ≤ 10 := by omega
          exact Nat.mul_le_mul_right _ this
      _ = 10 ^ (rest.length + 1) := by ring
      _ = 10 ^ (c :: rest).length := by simp

theorem digitsToNat_ge (c : Char) (rest : List Char) (hd : c.isDigit = true)
    (h0 : c ≠ '0') : 10 ^ rest.length ≤ digitsToNat (c :: rest) := by
  rw [digitsToNat_cons]
  have := digit_pos hd h0
  have hp : (0:Nat) < 10 ^ rest.length := Nat.pos_pow_of_pos _ (by norm_num)
  nlinarith [Nat.zero_le (digitsToNat rest)]

theorem digits_inj_of_length : ∀ (cs1 cs2 : List Char),
    cs1.length = cs2.length → (∀ c ∈ cs1, c.isDigit = true) →
    (∀ c ∈ cs2, c.isDigit = true) → digitsToNat cs1 = digitsToNat cs2 → cs1 = cs2 := by
  intro cs1
  induction cs1 using List.reverseRecOn with
  | nil =>
    intro cs2 hl _ _ _
    symm at hl
    exact (List.length_eq_zero.mp hl).symm
  | append_singleton xs c ih =>
    intro cs2 hl hd1 hd2 hv
    rcases cs2.eq_nil_or_concat with rfl | ⟨ys, c2, rfl⟩
    · simp at hl
    · rw [List.concat_eq_append] at hl hd2 hv ⊢
      rw [digitsToNat_append_singleton, digitsToNat_append_singleton] at hv
      have hc := digit_val_lt (hd1 c (by simp))
      have hc2 := digit_val_lt (hd2 c2 (by simp))
      have hmod : c.toNat - '0'.toNat = c2.toNat - '0'.toNat := by omega
      have hdiv : digitsToNat xs = digitsToNat ys := by omega
      have hlen : xs.length = ys.length := by simpa using hl
      have hxs : xs = ys :=
        ih ys hlen (fun d hd => hd1 d (by simp [hd])) (fun d hd => hd2 d (by simp [hd])) hdiv
      subst hxs
      have hceq : c = c2 := by
        have b1 := digit_toNat_ge (hd1 c (by simp))
        have b2 := digit_toNat_ge (hd2 c2 (by simp))
        have h0 : ('0' : Char).toNat = 48 := by decide
        exact char_eq_of_toNat_eq (by omega)
      rw [hceq]

theorem canonicalDigits_inj (cs1 cs2 : List Char)
    (hne1 : cs1 ≠ []) (hd1 : ∀ c ∈ cs1, c.isDigit = true)
    (hz1 : cs1.head? = some '0' → cs1 = ['0'])
    (hne2 : cs2 ≠ []) (hd2 : ∀ c ∈ cs2, c.isDigit = true)
    (hz2 : cs2.head? = some '0' → cs2 = ['0'])
    (hv : digitsToNat cs1 = digitsToNat cs2) : cs1 = cs2 := by
  rcases cs1 with _ | ⟨c1, r1⟩
  · exact absurd rfl hne1
  rcases cs2 with _ | ⟨c2, r2⟩
  · exact absurd rfl hne2
  by_cases e1 : c1 = '0'
  · have h1 : c1 :: r1 = ['0'] := hz1 (by rw [e1]; rfl)
    cases h1
    by_cases e2 : c2 = '0'
    · have h2 : c2 :: r2 = ['0'] := hz2 (by rw [e2]; rfl)
      cases h2
      rfl
    · exfalso
      have hge := digitsToNat_ge c2 r2 (hd2 c2 (by simp)) e2
      have h0 : digitsToNat ['0'] = 0 := by decide
      rw [h0] at hv
      have hp : (0:Nat) < 10 ^ r2.length := Nat.pos_pow_of_pos _ (by norm_num)
      omega
  · by_cases e2 : c2 = '0'
    · exfalso
      have h2 : c2 :: r2 = ['0'] := hz2 (by rw [e2]; rfl)
      cases h2
      have hge := digitsToNat_ge c1 r1 (hd1 c1 (by simp)) e1
      have h0 : digitsToNat ['0'] = 0 := by decide
      rw [h0] at hv
      have hp : (0:Nat) < 10 ^ r1.length := Nat.pos_pow_of_pos _ (by norm_num)
      omega
    · have hlt1 := digitsToNat_lt (c1 :: r1) hd1
      have hlt2 := digitsToNat_lt (c2 :: r2) hd2
      have hge1 := digitsToNat_ge c1 r1 (hd1 c1 (by simp)) e1
      have hge2 := digitsToNat_ge c2 r2 (hd2 c2 (by simp)) e2
      simp only [List.length_cons] at hlt1 hlt2
      have hlen : r1.length = r2.length := by
        rcases Nat.lt_trichotomy r1.length r2.length with h | h | h
        · exfalso
          have hmono : (10:Nat) ^ (r1.length + 1) ≤ 10 ^ r2.length :=
            Nat.pow_le_pow_right (by norm_num) (by omega)
          omega
        · exact h
        · exfalso
          have hmono : (10:Nat) ^ (r2.length + 1) ≤ 10 ^ r1.length :=
            Nat.pow_le_pow_right (by norm_num) (by omega)
          omega
      exact digits_inj_of_length (c1 :: r1) (c2 :: r2) (by simp [hlen]) hd1 hd2 hv

theorem canonicalIndex_inj {k1 k2 : String} {i : Nat}
    (h1 : canonicalIndex k1 = some i) (h2 : canonicalIndex k2 = some i) : k1 = k2 := by
  simp only [canonicalIndex] at h1 h2
  split_ifs at h1 h2 with hc1 hc2
  obtain ⟨hne1, hd1, hz1, _⟩ := hc1
  obtain ⟨hne2, hd2, hz2, _⟩ := hc2
  have hv1 : digitsToNat k1.data = i := by simpa using h1
  have hv2 : digitsToNat k2.data = i := by simpa using h2
  have : k1.data = k2.data :=
    canonicalDigits_inj k1.data k2.data hne1 hd1 hz1 hne2 hd2 hz2 (by rw [hv1, hv2])
  exact String.ext this


/-! ### Order and distinctness through property writes -/

theorem keyBefore_to_nonIndex (a : String) {b : String}
    (hb : canonicalIndex b = none) : keyBefore a b = true := by
  unfold keyBefore
  rw [hb]
  cases canonicalIndex a <;> simp

theorem mapfst_updateKey {a : Type} (o : List (String × a)) (k : String) (v : a)
    (hmem : (getKeyG o k).isSome) :
    (updateKey o k v).map Prod.fst = o.map Prod.fst := by
  induction o with
  | nil => rfl
  | cons kv rest ih =>
    obtain ⟨k0, v0⟩ := kv
    by_cases h0 : k0 = k
    · subst h0
      simp [updateKey]
    · have hmem' : (getKeyG rest k).isSome := by simpa [getKeyG, h0] using hmem
      simp [updateKey, h0, ih hmem']

theorem pairwise_insertIndexKey {a : Type} {o : List (String × a)} {k : String}
    {i : Nat} {v : a} (hk : canonicalIndex k = some i) (hfresh : getKeyG o k = none)
    (hp : keysPairwise o) : keysPairwise (insertIndexKey o k i v) := by
  induction o with
  | nil => simp [insertIndexKey, keysPairwise]
  | cons kv rest ih =>
    obtain ⟨k0, v0⟩ := kv
    unfold keysPairwise at hp
    rw [List.pairwise_cons] at hp
    obtain ⟨hall, hrest⟩ := hp
    have hk0 : k0 ≠ k := by
      intro he
      rw [he] at hfresh
      simp [getKeyG] at hfresh
    have hfresh' : getKeyG rest k = none := by
      simpa [getKeyG, hk0] using hfresh
    simp only [insertIndexKey]
    cases h0 : canonicalIndex k0 with
    | some j =>
      dsimp only
      by_cases hj : j < i
      · rw [if_pos hj]
        unfold keysPairwise
        rw [List.pairwise_cons]
        refine ⟨?_, ih hfresh' hrest⟩
        intro y hy
        rcases List.mem_cons.mp ((insertIndexKey_perm rest k i v).mem_iff.mp hy) with h | h
        · subst h
          show keyBefore k0 k = true
          unfold keyBefore
          rw [h0, hk]
          simp [hj]
        · exact hall y h
      · rw [if_neg hj]
        have hik : i < j := by
          rcases Nat.lt_or_ge i j with h | h
          · exact h
          · exfalso
            have : i = j := by omega
            subst this
            exact hk0 (canonicalIndex_inj h0 hk)
        unfold keysPairwise
        rw [List.pairwise_cons]
        constructor
        · intro y hy
          rcases List.mem_cons.mp hy with rfl | hy'
          · show keyBefore k k0 = true
            unfold keyBefore
            rw [hk, h0]
            simp [hik]
          · have h1 : keyBefore k k0 = true := by
              unfold keyBefore
              rw [hk, h0]
              simp [hik]
            exact keyBefore_trans h1 (hall y hy')
        · exact List.pairwise_cons.mpr ⟨hall, hrest⟩
    | none =>
      dsimp only
      have h1 : keyBefore k k0 = true := by
        unfold keyBefore
        rw [hk, h0]
      unfold keysPairwise
      rw [List.pairwise_cons]
      constructor
      · intro y hy
        rcases List.mem_cons.mp hy with rfl | hy'
        · exact h1
        · exact keyBefore_trans h1 (hall y hy')
      · exact List.pairwise_cons.mpr ⟨hall, hrest⟩

theorem pairwise_setKey {a : Type} {o : List (String × a)} (k : String) (v : a)
    (hp : keysPairwise o) : keysPairwise (setKey o k v) := by
  unfold setKey
  by_cases hmem : o.any (fun kv => kv.1 = k)
  · rw [if_pos hmem]
    rw [anyKey_eq_isSome] at hmem
    have hkeys := mapfst_updateKey o k v hmem
    have h1 : List.Pairwise (fun x y => keyBefore x y = true) (o.map Prod.fst) := by
      rw [List.pairwise_map]
      exact hp
    have h2 : List.Pairwise (fun x y => keyBefore x y = true)
        ((updateKey o k v).map Prod.fst) := by
      rw [hkeys]
      exact h1
    rw [List.pairwise_map] at h2
    exact h2
  · rw [if_neg hmem]
    rw [anyKey_eq_isSome] at hmem
    have hfresh : getKeyG o k = none := by
      cases hk : getKeyG o k <;> simp_all
    cases hci : canonicalIndex k with
    | some i => exact pairwise_insertIndexKey hci hfresh hp
    | none =>
      unfold keysPairwise
      rw [List.pairwise_append]
      refine ⟨hp, by simp, ?_⟩
      intro x hx y hy
      have : y = (k, v) := by simpa using hy
      subst this
      exact keyBefore_to_nonIndex x.1 hci

theorem nodup_setKey {a : Type} {o : List (String × a)} (k : String) (v : a)
    (hn : (o.map Prod.fst).Nodup) : ((setKey o k v).map Prod.fst).Nodup := by
  unfold setKey
  by_cases hmem : o.any (fun kv => kv.1 = k)
  · rw [if_pos hmem]
    rw [anyKey_eq_isSome] at hmem
    rw [mapfst_updateKey o k v hmem]
    exact hn
  · rw [if_neg hmem]
    rw [anyKey_eq_isSome] at hmem
    have hfresh : getKeyG o k = none := by
      cases hk : getKeyG o k <;> simp_all
    have hknotin : k ∉ o.map Prod.fst := (getKeyG_eq_none_iff o k).mp hfresh
    cases hci : canonicalIndex k with
    | some i =>
      have hperm := (insertIndexKey_perm o k i v).map Prod.fst
      rw [List.Perm.nodup_iff hperm]
      refine List.nodup_cons.mpr ⟨?_, hn⟩
      simpa using hknotin
    | none =>
      rw [List.Perm.nodup_iff ((List.perm_append_singleton (k, v) o).map Prod.fst)]
      refine List.nodup_cons.mpr ⟨?_, hn⟩
      simpa using hknotin

theorem wfObj_setKey {a : Type} {o : List (String × a)} (k : String) (v : a)
    (hw : wfObj o) : wfObj (setKey o k v) :=
  ⟨nodup_setKey k v hw.1, pairwise_setKey k v hw.2⟩

theorem wfObj_objAssign {t s : JObj} (hw : wfObj t) : wfObj (objAssign t s) := by
  induction s generalizing t with
  | nil => exact hw
  | cons kv rest ih =>
    show wfObj (objAssign (setKey t kv.1 kv.2) rest)
    exact ih (wfObj_setKey kv.1 kv.2 hw)

theorem mem_objAssign {t s : JObj} {x} (hx : x ∈ objAssign t s) : x ∈ t ∨ x ∈ s := by
  induction s generalizing t with
  | nil => exact Or.inl hx
  | cons kv rest ih =>
    have hx' : x ∈ objAssign (setKey t kv.1 kv.2) rest := hx
    rcases ih hx' with h | h
    · rcases mem_setKey h with h2 | h2
      · right
        simp [h2]
      · exact Or.inl h2
    · right
      simp [h]

theorem allScalarVals_setKey {o : JObj} {k : String} {v : JVal}
    (ho : allScalarVals o) (hv : isScalar v = true) : allScalarVals (setKey o k v) := by
  intro kv hkv
  rcases mem_setKey hkv with h | h
  · rw [h]
    exact hv
  · exact ho kv h

theorem allScalarVals_objAssign {t s : JObj} (ht : allScalarVals t)
    (hs : allScalarVals s) : allScalarVals (objAssign t s) := by
  intro kv hkv
  rcases mem_objAssign hkv with h | h
  · exact ht kv h
  · exact hs kv h


/-! ## C2 — `isNumeric` -/

/-- C2 (counterexample): the claim says a string like `"42abc"` parses
as `42` and is numeric; in the source `isNumeric("42abc")` is `false`,
because the global `isFinite` applies the `Number` coercion to the
original string and `Number("42abc")` is `NaN` — even though
`parseFloat("42abc")` is indeed `42`. -/
theorem claim2_counterexample :
    parseFloatJS (.str "42abc") = .fin 42 ∧ isNumeric (.str "42abc") = false := by
  constructor
  · decide
  · decide

/-- C2 (amended): for every value `v`, `isNumeric v` is true iff
`parseFloat(v)` is not `NaN` and the `isFinite` check on the original
value `v` holds, where the global `isFinite` applies the `Number`
coercion to `v`; this accepts numeric strings (`"1"`, `"2.5"`, `"-3"`),
rejects the empty string and `"NaN"` and `"Infinity"`, and rejects
`"42abc"` (it parses as `42` under `parseFloat` but its `Number`
coercion is `NaN`, so the `isFinite` check fails). -/
theorem claim2_isNumeric_amended :
    (∀ v : JVal, isNumeric v = (!isNaNJS (parseFloatJS v) && isFiniteNum (toNumber v))) ∧
    isNumeric (.str "1") = true ∧ isNumeric (.str "2.5") = true ∧
    isNumeric (.str "-3") = true ∧ isNumeric (.str "") = false ∧
    isNumeric (.str "NaN") = false ∧ isNumeric (.str "Infinity") = false ∧
    isNumeric (.str "42abc") = false := by
  refine ⟨fun v => rfl, ?_, ?_, ?_, ?_, ?_, ?_, ?_⟩ <;> decide

/-! ## C9 — extension dispatch -/

theorem extAfterLastDot_eq_none (cs : List Char) (h : '.' ∉ cs) :
    extAfterLastDot cs = none := by
  induction cs with
  | nil => rfl
  | cons c rest ih =>
    have hc : ¬(c = '.') := fun he => h (by simp [he])
    have hr : '.' ∉ rest := fun hx => h (by simp [hx])
    simp [extAfterLastDot, ih hr, hc]

theorem extAfterLastDot_append (a b : List Char) (hb : '.' ∉ b) :
    extAfterLastDot (a ++ '.' :: b) = some b := by
  induction a with
  | nil =>
    simp [extAfterLastDot, extAfterLastDot_eq_none b hb]
  | cons c rest ih =>
    simp [extAfterLastDot, ih]

/-- C9: the extension is the lowercased substring after the last `'.'`
(empty when there is none), and dispatch is: `csv`/`tsv`/`txt` to the
delimited-text adapter with the tab delimiter forced exactly for
`tsv`, `json` to the JSON row extractor, `xml` to the XML row
extractor, and any other extension fails with `UnsupportedFileType`
while the result does not depend on any parser (no parser invoked);
`data.xyz` is such a file. -/
theorem claim9_extension_dispatch :
    (∀ s t : String, '.' ∉ t.data →
      getFileExtension (s ++ "." ++ t) = String.mk (t.data.map asciiToLower)) ∧
    (∀ s : String, '.' ∉ s.data → getFileExtension s = "") ∧
    (∀ O name content,
      (getFileExtension name = "csv" →
        loadRows O name content = .ok (O.papaParse false content)) ∧
      (getFileExtension name = "txt" →
        loadRows O name content = .ok (O.papaParse false content)) ∧
      (getFileExtension name = "tsv" →
        loadRows O name content = .ok (O.papaParse true content)) ∧
      (getFileExtension name = "json" → O.jsonParse content = .error () →
        loadRows O name content = .error .jsonSyntaxError) ∧
      (getFileExtension name = "json" → ∀ json rows, O.jsonParse content = .ok json →
        parseJsonToRows json = .ok rows → loadRows O name content = .ok rows) ∧
      (getFileExtension name = "xml" → ∀ doc, O.xmlParse content = .ok doc →
        loadRows O name content = .ok (parseXmlToRows doc)) ∧
      (getFileExtension name = "xml" → O.xmlParse content = .error () →
        loadRows O name content = .error .xmlParseError) ∧
      (getFileExtension name ∉ (["csv", "tsv", "txt", "json", "xml"] : List String) →
        ∀ O', loadRows O name content = .error .unsupportedFileType ∧
          loadRows O name content = loadRows O' name content)) ∧
    (∀ O content, loadRows O "data.xyz" content = .error .unsupportedFileType) := by
  refine ⟨?_, ?_, ?_, ?_⟩
  · intro s t ht
    unfold getFileExtension
    have hdot : ("." : String).data = ['.'] := rfl
    have hdata : (s ++ "." ++ t).data = s.data ++ '.' :: t.data := by
      rw [String.data_append, String.data_append, hdot, List.append_assoc]
      rfl
    rw [hdata, extAfterLastDot_append _ _ ht]
  · intro s hs
    unfold getFileExtension
    rw [extAfterLastDot_eq_none s.data hs]
  · intro O name content
    refine ⟨?_, ?_, ?_, ?_, ?_, ?_, ?_, ?_⟩
    · intro h
      simp [loadRows, h]
    · intro h
      simp [loadRows, h]
    · intro h
      simp [loadRows, h]
    · intro h he
      simp [loadRows, h, he]
    · intro h json rows hj hr
      simp [loadRows, h, hj, hr]
    · intro h doc hd
      simp [loadRows, h, hd]
    · intro h he
      simp [loadRows, h, he]
    · intro h O'
      simp only [List.mem_cons, List.mem_singleton, not_or] at h
      obtain ⟨h1, h2, h3, h4, h5⟩ := h
      constructor
      · simp [loadRows, h1, h2, h3, h4, h5]
      · simp [loadRows, h1, h2, h3, h4, h5]
  · intro O content
    have hx : getFileExtension "data.xyz" = "xyz" := by decide
    simp [loadRows, hx]

/-- C9 (witness): the hypotheses hold at concrete inputs. -/
theorem claim9_extension_dispatch_witness :
    ('.' ∉ ("xyz" : String).data ∧
      getFileExtension ("data" ++ "." ++ "xyz") = String.mk ("xyz".data.map asciiToLower)) ∧
    loadRows failOracles "data.xyz" "1,2" = .error .unsupportedFileType :=
  ⟨⟨by decide, claim9_extension_dispatch.1 "data" "xyz" (by decide)⟩,
    claim9_extension_dispatch.2.2.2 failOracles "1,2"⟩

/-! ## C8 — ingestion errors leave the state unchanged -/

/-- C8: a load attempt that fails with any ingestion error (malformed
XML or JSON, a JSON pipeline crash, or an unsupported file type)
leaves the published row table and the selection keys exactly as they
were, and any run of failing attempts keeps the previously loaded
table active. -/
theorem claim8_error_keeps_state :
    (∀ O st name content e, loadRows O name content = .error e →
      handleFileUpdate O st name content = st) ∧
    (∀ O st (attempts : List (String × String)),
      (∀ a ∈ attempts, ∃ e, loadRows O a.1 a.2 = .error e) →
      attempts.foldl (fun s a => handleFileUpdate O s a.1 a.2) st = st) := by
  have h1 : ∀ O st name content e, loadRows O name content = .error e →
      handleFileUpdate O st name content = st := by
    intro O st name content e he
    unfold handleFileUpdate
    rw [he]
  refine ⟨h1, ?_⟩
  intro O st attempts h
  induction attempts generalizing st with
  | nil => rfl
  | cons a rest ih =>
    obtain ⟨e, he⟩ := h a (by simp)
    simp only [List.foldl_cons]
    rw [h1 O st a.1 a.2 e he]
    exact ih st (fun x hx => h x (by simp [hx]))

/-- C8 (witness): a malformed-XML attempt on a loaded session leaves
the session unchanged. -/
theorem claim8_error_keeps_state_witness :
    loadRows failOracles "data.xml" "<root" = .error .xmlParseError ∧
    handleFileUpdate failOracles prevState "data.xml" "<root" = prevState :=
  ⟨rfl,
    claim8_error_keeps_state.1 failOracles prevState "data.xml" "<root" .xmlParseError rfl⟩


/-! ## C7 — XML rows -/

theorem getKeyG_xmlFold : ∀ (subs : List XNode) (rowObj : JObj) (t : String),
    getKeyG (subs.foldl xmlFieldStep rowObj) t =
      (match lastElemWithTag subs t with
       | some sub => some (.str (jsTrim (textContent sub)))
       | none => getKeyG rowObj t) := by
  intro subs
  induction subs using List.reverseRecOn with
  | nil => intro rowObj t; rfl
  | append_singleton rest sub ih =>
    intro rowObj t
    rw [List.foldl_append]
    simp only [List.foldl_cons, List.foldl_nil]
    unfold lastElemWithTag
    rw [List.reverse_append]
    simp only [List.reverse_singleton, List.singleton_append, List.find?]
    cases sub with
    | text s =>
      show getKeyG (rest.foldl xmlFieldStep rowObj) t = _
      rw [ih rowObj t]
      rfl
    | elem tg a cs =>
      by_cases htg : tg = t
      · subst htg
        show getKeyG (setKey (rest.foldl xmlFieldStep rowObj) tg _) tg = _
        rw [getKeyG_setKey]
        simp
      · show getKeyG (setKey (rest.foldl xmlFieldStep rowObj) tg _) t = _
        rw [getKeyG_setKey]
        have : ¬(tg = t) := htg
        simp only [if_neg this]
        rw [ih rowObj t]
        simp [lastElemWithTag, htg]

/-- C7: after a successful parse, each direct child element of the
document root yields one candidate row — its attributes as string
fields, then (when it has element children) one key per grandchild tag
mapped to the grandchild's trimmed text with the last grandchild
winning on repeats, or (when it has no element children and its
trimmed text is non-empty) its own tag mapped to that text — and
candidate rows with zero keys are discarded; the spec's two-item
example yields exactly `[{id:"1", name:"A"}, {id:"2", name:"B"}]`. -/
theorem claim7_xml_row_extraction :
    (∀ rt rattrs children,
      parseXmlToRows (.elem rt rattrs children) =
        ((childElements children).map xmlRow).filter (fun r => r ≠ [])) ∧
    (∀ tag attrs cs, (childElements cs).length > 0 → ∀ t,
      getKeyG (xmlRow (.elem tag attrs cs)) t =
        (match lastElemWithTag (childElements cs) t with
         | some sub => some (.str (jsTrim (textContent sub)))
         | none => getKeyG (attrs.foldl (fun acc a => setKey acc a.1 (.str a.2)) []) t)) ∧
    (∀ tag attrs cs, childElements cs = [] →
      xmlRow (.elem tag attrs cs) =
        (let rowObj := attrs.foldl (fun acc a => setKey acc a.1 (.str a.2)) []
         let t := jsTrim (textContent (.elem tag attrs cs))
         if t ≠ "" then setKey rowObj tag (.str t) else rowObj)) ∧
    parseXmlToRows exampleXml =
      [[("id", .str "1"), ("name", .str "A")], [("id", .str "2"), ("name", .str "B")]] := by
  refine ⟨fun rt rattrs children => rfl, ?_, ?_, by decide⟩
  · intro tag attrs cs h t
    unfold xmlRow
    dsimp only
    rw [if_pos h]
    exact getKeyG_xmlFold (childElements cs) _ t
  · intro tag attrs cs h
    unfold xmlRow
    dsimp only
    rw [h]
    simp

/-- C7 (witness): the grandchild-characterization hypotheses hold on
the example's first item. -/
theorem claim7_xml_row_extraction_witness :
    (childElements [XNode.elem "name" [] [.text "A"]]).length > 0 ∧
    getKeyG (xmlRow (.elem "item" [("id", "1")] [.elem "name" [] [.text "A"]])) "name" =
      some (.str "A") := by
  constructor
  · decide
  · have h := claim7_xml_row_extraction.2.1 "item" [("id", "1")]
      [.elem "name" [] [.text "A"]] (by decide) "name"
    rw [h]
    decide

/-! ## C4 — array-rooted JSON -/

theorem noUndefList_mem {xs : List JVal} {x : JVal} (h : noUndefList xs = true)
    (hx : x ∈ xs) : noUndefB x = true := by
  induction xs with
  | nil => cases hx
  | cons y ys ih =>
    rw [noUndefList, Bool.and_eq_true] at h
    rcases List.mem_cons.mp hx with rfl | hx'
    · exact h.1
    · exact ih h.2 hx'

theorem ne_undef_of_noUndefB {x : JVal} (h : noUndefB x = true) : x ≠ .undef := by
  intro he
  rw [he] at h
  exact absurd h (by simp [noUndefB])

/-- C4: for an array-rooted JSON document, the extractor succeeds with
one row per element in order — object-like elements flattened,
non-object elements wrapped as `{value: element}` — so the output
length equals the input length and row `i` is built from element `i`. -/
theorem claim4_array_root_rows (items : List JVal) (h : noUndefList items = true) :
    parseJsonToRows (.arr items) = .ok (items.map rootArrayRow) ∧
    (items.map rootArrayRow).length = items.length ∧
    (∀ i (hi : i < items.length),
      (items.map rootArrayRow).get ⟨i, by simpa using hi⟩ =
        rootArrayRow (items.get ⟨i, hi⟩)) ∧
    (∀ item, isObjLike item = true → rootArrayRow item = flattenObject item "") ∧
    (∀ item, isObjLike item = false → rootArrayRow item = [("value", item)]) := by
  refine ⟨?_, by simp, ?_, ?_, ?_⟩
  · show Except.ok ((items.filter (fun it => it ≠ .undef)).map _) = _
    have hfilter : items.filter (fun it => it ≠ .undef) = items := by
      rw [List.filter_eq_self]
      intro a ha
      simpa using ne_undef_of_noUndefB (noUndefList_mem h ha)
    rw [hfilter]
    rfl
  · intro i hi
    exact List.get_map _
  · intro item hobj
    unfold rootArrayRow
    rw [if_pos hobj]
  · intro item hobj
    unfold rootArrayRow
    rw [if_neg (by simp [hobj])]

/-- C4 (witness): a concrete mixed array. -/
theorem claim4_array_root_rows_witness :
    noUndefList [JVal.obj [("x", .num 1)], .num 5, .null] = true ∧
    parseJsonToRows (.arr [.obj [("x", .num 1)], .num 5, .null]) =
      .ok ([JVal.obj [("x", .num 1)], .num 5, .null].map rootArrayRow) :=
  ⟨by decide,
    (claim4_array_root_rows [.obj [("x", .num 1)], .num 5, .null] (by decide)).1⟩


/-! ## C3 — the array-path chooser -/

/-- The predicate the source's chooser effectively uses over the
enumeration. -/
theorem findLoop_ne_some_empty : ∀ (fs : List (String × JVal)) (cur f : String),
    findLoop fs cur = some f → f ≠ "" := by
  intro fs
  induction fs with
  | nil => intro cur f h; cases h
  | cons kv rest ih =>
    obtain ⟨k, val⟩ := kv
    intro cur f h
    rw [findLoop] at h
    cases hfind : findObjectArrayPath val (joinKey cur k) with
    | some found =>
      rw [hfind] at h
      dsimp only at h
      by_cases hf : found = ""
      · rw [if_pos hf] at h
        exact ih cur f h
      · rw [if_neg hf] at h
        cases h
        exact hf
    | none =>
      rw [hfind] at h
      dsimp only at h
      exact ih cur f h

theorem findPath_some_empty (v : JVal) (cur : String)
    (h : findObjectArrayPath v cur = some "") :
    isArrayOfObjects v = true ∧ cur = "" := by
  rw [findObjectArrayPath.eq_def] at h
  by_cases ha : isArrayOfObjects v
  · rw [if_pos ha] at h
    cases h
    exact ⟨ha, rfl⟩
  · rw [if_neg ha] at h
    exfalso
    cases v with
    | obj fs =>
      dsimp only at h
      exact findLoop_ne_some_empty fs cur "" h rfl
    | null => cases h
    | undef => cases h
    | bool b => cases h
    | num q => cases h
    | str s => cases h
    | arr xs => cases h

/-- The chooser the source implements equals "first match over the
pre-order enumeration, skipping matches with an empty path name". -/
theorem findPath_eq_enum_find : ∀ (v : JVal) (cur : String),
    ¬(cur = "" ∧ isArrayOfObjects v = true) →
    findObjectArrayPath v cur =
      ((dfsEnum v cur).find? (fun pr => pr.1 ≠ "" && isArrayOfObjects pr.2)).map
        Prod.fst := by
  intro v cur
  refine findObjectArrayPath.induct
    (fun v cur => ¬(cur = "" ∧ isArrayOfObjects v = true) →
      findObjectArrayPath v cur =
        ((dfsEnum v cur).find? (fun pr => pr.1 ≠ "" && isArrayOfObjects pr.2)).map
          Prod.fst)
    (fun fs cur =>
      findLoop fs cur =
        ((dfsEnumFields fs cur).find? (fun pr => pr.1 ≠ "" && isArrayOfObjects pr.2)).map
          Prod.fst)
    ?_ ?_ ?_ ?_ ?_ ?_ ?_ v cur
  · intro v cur ha hcond
    have hcur : ¬(cur = "") := fun hc => hcond ⟨hc, ha⟩
    rw [findObjectArrayPath.eq_def, if_pos ha, dfsEnum.eq_def, List.find?_cons]
    have hpred : (decide ¬(cur = "") && isArrayOfObjects v) = true := by
      simp [hcur, ha]
    simp only [hpred]
    rfl
  · intro cur fields ha ih hcond
    rw [findObjectArrayPath.eq_def, if_neg ha, dfsEnum.eq_def, List.find?_cons]
    have hpred : (decide ¬(cur = "") && isArrayOfObjects (JVal.obj fields)) = false := by
      simp [ha]
    simp only [hpred]
    exact ih
  · intro v cur ha hnotobj hcond
    rw [findObjectArrayPath.eq_def, if_neg ha, dfsEnum.eq_def, List.find?_cons]
    have hpred : (decide ¬(cur = "") && isArrayOfObjects v) = false := by
      simp [ha]
    simp only [hpred]
    cases v with
    | obj fs => exact absurd rfl (hnotobj fs)
    | null => rfl
    | undef => rfl
    | bool b => rfl
    | num q => rfl
    | str s => rfl
    | arr xs => rfl
  · intro cur
    rfl
  · intro k val rest cur hfind ih1 ih2
    have hval := findPath_some_empty val (joinKey cur k) hfind
    rw [findLoop, hfind]
    dsimp only
    rw [if_pos rfl]
    rw [dfsEnumFields, List.find?_append]
    have hl1 : (dfsEnum val (joinKey cur k)).find?
        (fun pr => pr.1 ≠ "" && isArrayOfObjects pr.2) = none := by
      obtain ⟨ha, hcur⟩ := hval
      cases val with
      | arr xs =>
        rw [dfsEnum.eq_def]
        dsimp only
        rw [hcur]
        simp
      | obj fs => simp [isArrayOfObjects] at ha
      | null => simp [isArrayOfObjects] at ha
      | undef => simp [isArrayOfObjects] at ha
      | bool b => simp [isArrayOfObjects] at ha
      | num q => simp [isArrayOfObjects] at ha
      | str s => simp [isArrayOfObjects] at ha
    rw [hl1]
    exact ih2
  · intro k val rest cur found hfind hne ih
    have hcond : ¬(joinKey cur k = "" ∧ isArrayOfObjects val = true) := by
      rintro ⟨hc, ha⟩
      rw [findObjectArrayPath.eq_def, if_pos ha] at hfind
      cases hfind
      exact hne hc
    have heq := ih hcond
    rw [hfind] at heq
    rw [findLoop, hfind]
    dsimp only
    rw [if_neg hne]
    rw [dfsEnumFields, List.find?_append]
    cases hfd : (dfsEnum val (joinKey cur k)).find?
        (fun pr => pr.1 ≠ "" && isArrayOfObjects pr.2) with
    | none =>
      rw [hfd] at heq
      cases heq
    | some pr =>
      rw [hfd] at heq
      simpa using heq
  · intro k val rest cur hfind ih1 ih2
    have hcond : ¬(joinKey cur k = "" ∧ isArrayOfObjects val = true) := by
      rintro ⟨hc, ha⟩
      rw [findObjectArrayPath.eq_def, if_pos ha] at hfind
      cases hfind
    have heq := ih1 hcond
    rw [hfind] at heq
    rw [findLoop, hfind]
    dsimp only
    rw [dfsEnumFields, List.find?_append]
    cases hfd : (dfsEnum val (joinKey cur k)).find?
        (fun pr => pr.1 ≠ "" && isArrayOfObjects pr.2) with
    | none =>
      simpa using ih2
    | some pr =>
      rw [hfd] at heq
      cases heq


/-- C3 (counterexample): on `{"a":[null],"b":[{"x":1}]}` the source
chooses path `"a"`, because `typeof null === 'object'` lets an
all-`null` array pass its candidate test, while the first path whose
value is a non-empty array of plain objects — the claim's predicate,
which `null` does not satisfy — is `"b"`. -/
theorem claim3_counterexample :
    findObjectArrayPath nullElemDoc "" = some "a" ∧
    specFirstArrayPath nullElemDoc = some "b" ∧
    (some "a" : Option String) ≠ some "b" :=
  ⟨by decide, by decide, by decide⟩

/-- C3 (amended): for every object-rooted document, the array path the
source chooses is the first match in the pre-order, stored-property-
order enumeration of dot-paths whose value passes the source's
candidate test — a non-empty array all of whose elements are `null` or
non-array objects (`typeof el === 'object' && !Array.isArray(el)`) —
where a match whose path name is empty is skipped; the chooser is a
function of the document, so the same document always yields the same
path, and with several candidates the first found wins (the weather
example yields `"readings"`). -/
theorem claim3_array_path_first_match :
    (∀ fs : List (String × JVal),
      findObjectArrayPath (.obj fs) "" = codeFirstArrayPath (.obj fs)) ∧
    findObjectArrayPath exampleDoc "" = some "readings" ∧
    findObjectArrayPath nullElemDoc "" = some "a" := by
  refine ⟨?_, by decide, by decide⟩
  intro fs
  have h := findPath_eq_enum_find (.obj fs) ""
    (by rintro ⟨h1, h2⟩; simp [isArrayOfObjects] at h2)
  exact h


/-! ## C6 — flattening: scalar output and idempotence -/

theorem wfObj_nil {a : Type} : wfObj ([] : List (String × a)) := by
  constructor <;> simp

theorem isScalar_of_not_structured {v : JVal} (hu : v ≠ .undef)
    (ho : ∀ fs, v ≠ .obj fs) (ha : ∀ xs, v ≠ .arr xs) : isScalar v = true := by
  cases v with
  | undef => exact absurd rfl hu
  | obj fs => exact absurd rfl (ho fs)
  | arr xs => exact absurd rfl (ha xs)
  | null => rfl
  | bool b => rfl
  | num q => rfl
  | str s => rfl

/-- Main flatten invariant, by strong induction on term size: starting
from a well-formed all-scalar accumulator, each of the four mutual
flattening workers preserves well-formedness and produces only scalar
values, provided the input contains no `undef`. -/
theorem flatten_all_good : ∀ (n : Nat),
    (∀ (v : JVal) (key : String) (out : JObj), sizeOf v ≤ n →
      noUndefB v = true → wfObj out → allScalarVals out →
      wfObj (flattenStep v key out) ∧ allScalarVals (flattenStep v key out)) ∧
    (∀ (fs : List (String × JVal)) (pre : String) (out : JObj), sizeOf fs ≤ n →
      noUndefFields fs = true → wfObj out → allScalarVals out →
      wfObj (flattenFields fs pre out) ∧ allScalarVals (flattenFields fs pre out)) ∧
    (∀ (xs : List JVal) (i : Nat) (pre : String) (out : JObj), sizeOf xs ≤ n →
      noUndefList xs = true → wfObj out → allScalarVals out →
      wfObj (flattenArrFields xs i pre out) ∧ allScalarVals (flattenArrFields xs i pre out)) ∧
    (∀ (xs : List JVal) (i : Nat) (key : String) (out : JObj), sizeOf xs ≤ n →
      noUndefList xs = true → wfObj out → allScalarVals out →
      wfObj (flattenItems xs i key out) ∧ allScalarVals (flattenItems xs i key out)) := by
  intro n
  induction n with
  | zero =>
    refine ⟨?_, ?_, ?_, ?_⟩
    · intro v key out hle
      exact absurd hle (by cases v <;> simp)
    · intro fs pre out hle
      exact absurd hle (by cases fs <;> simp)
    · intro xs i pre out hle
      exact absurd hle (by cases xs <;> simp)
    · intro xs i key out hle
      exact absurd hle (by cases xs <;> simp)
  | succ n ih =>
    obtain ⟨ihS, ihF, ihA, ihI⟩ := ih
    have hscalar : ∀ (v : JVal) (key : String) (out : JObj),
        isScalar v = true → wfObj out → allScalarVals out →
        wfObj (setKey out key v) ∧ allScalarVals (setKey out key v) :=
      fun v key out hsc hw hs => ⟨wfObj_setKey key v hw, allScalarVals_setKey hs hsc⟩
    refine ⟨?_, ?_, ?_, ?_⟩
    · intro v key out hle hno hw hs
      cases v with
      | obj fs =>
        rw [flattenStep]
        have hsz : sizeOf fs ≤ n := by simp at hle; omega
        have hin := ihF fs key [] hsz (by simpa [noUndefB] using hno) wfObj_nil
          (by intro kv hkv; cases hkv)
        exact ⟨wfObj_objAssign hw, allScalarVals_objAssign hs hin.2⟩
      | arr items =>
        rw [flattenStep]
        have hsz : sizeOf items ≤ n := by simp at hle; omega
        exact ihI items 0 key out hsz (by simpa [noUndefB] using hno) hw hs
      | undef => exact absurd hno (by simp [noUndefB])
      | null =>
        rw [flattenStep.eq_def]; dsimp only
        exact hscalar _ key out rfl hw hs
      | bool b =>
        rw [flattenStep.eq_def]; dsimp only
        exact hscalar _ key out rfl hw hs
      | num q =>
        rw [flattenStep.eq_def]; dsimp only
        exact hscalar _ key out rfl hw hs
      | str s2 =>
        rw [flattenStep.eq_def]; dsimp only
        exact hscalar _ key out rfl hw hs
    · intro fs pre out hle hno hw hs
      cases fs with
      | nil =>
        rw [flattenFields]
        exact ⟨hw, hs⟩
      | cons kv rest =>
        obtain ⟨k, value⟩ := kv
        rw [flattenFields]
        rw [noUndefFields, Bool.and_eq_true] at hno
        have hszv : sizeOf value ≤ n := by simp at hle; omega
        have hszr : sizeOf rest ≤ n := by simp at hle; omega
        have hstep := ihS value (joinKey pre k) out hszv hno.1 hw hs
        exact ihF rest pre _ hszr hno.2 hstep.1 hstep.2
    · intro xs i pre out hle hno hw hs
      cases xs with
      | nil =>
        rw [flattenArrFields]
        exact ⟨hw, hs⟩
      | cons item rest =>
        rw [flattenArrFields]
        rw [noUndefList, Bool.and_eq_true] at hno
        have hne : ¬(item = JVal.undef) := ne_undef_of_noUndefB hno.1
        have hszv : sizeOf item ≤ n := by simp at hle; omega
        have hszr : sizeOf rest ≤ n := by simp at hle; omega
        have hstep := ihS item (joinKey pre (toString i)) out hszv hno.1 hw hs
        rw [if_neg hne]
        exact ihA rest (i + 1) pre _ hszr hno.2 hstep.1 hstep.2
    · intro xs i key out hle hno hw hs
      cases xs with
      | nil =>
        rw [flattenItems]
        exact ⟨hw, hs⟩
      | cons item rest =>
        rw [noUndefList, Bool.and_eq_true] at hno
        have hszr : sizeOf rest ≤ n := by simp at hle; omega
        cases item with
        | obj fs =>
          rw [flattenItems]
          have hszf : sizeOf fs ≤ n := by simp at hle; omega
          have hin := ihF fs (key ++ "[" ++ toString i ++ "]") [] hszf
            (by simpa [noUndefB] using hno.1) wfObj_nil (by intro kv hkv; cases hkv)
          exact ihI rest (i + 1) key _ hszr hno.2 (wfObj_objAssign hw)
            (allScalarVals_objAssign hs hin.2)
        | arr ys =>
          rw [flattenItems]
          have hszy : sizeOf ys ≤ n := by simp at hle; omega
          have hin := ihA ys 0 (key ++ "[" ++ toString i ++ "]") [] hszy
            (by simpa [noUndefB] using hno.1) wfObj_nil (by intro kv hkv; cases hkv)
          exact ihI rest (i + 1) key _ hszr hno.2 (wfObj_objAssign hw)
            (allScalarVals_objAssign hs hin.2)
        | undef => exact absurd hno.1 (by simp [noUndefB])
        | null =>
          rw [flattenItems]
          · exact ihI rest (i + 1) key _ hszr hno.2
              (wfObj_setKey _ _ hw) (allScalarVals_setKey hs rfl)
          · intro fs2 h2
            exact JVal.noConfusion h2
          · intro ys2 h2
            exact JVal.noConfusion h2
          · intro h2
            exact JVal.noConfusion h2
        | bool b =>
          rw [flattenItems]
          · exact ihI rest (i + 1) key _ hszr hno.2
              (wfObj_setKey _ _ hw) (allScalarVals_setKey hs rfl)
          · intro fs2 h2
            exact JVal.noConfusion h2
          · intro ys2 h2
            exact JVal.noConfusion h2
          · intro h2
            exact JVal.noConfusion h2
        | num q =>
          rw [flattenItems]
          · exact ihI rest (i + 1) key _ hszr hno.2
              (wfObj_setKey _ _ hw) (allScalarVals_setKey hs rfl)
          · intro fs2 h2
            exact JVal.noConfusion h2
          · intro ys2 h2
            exact JVal.noConfusion h2
          · intro h2
            exact JVal.noConfusion h2
        | str s2 =>
          rw [flattenItems]
          · exact ihI rest (i + 1) key _ hszr hno.2
              (wfObj_setKey _ _ hw) (allScalarVals_setKey hs rfl)
          · intro fs2 h2
            exact JVal.noConfusion h2
          · intro ys2 h2
            exact JVal.noConfusion h2
          · intro h2
            exact JVal.noConfusion h2

/-- Flattening a no-`undef` document (from any prefix) yields a
well-formed object body whose values are all scalars. -/
theorem flattenObject_good (v : JVal) (pre : String) (hno : noUndefB v = true) :
    wfObj (flattenObject v pre) ∧ allScalarVals (flattenObject v pre) := by
  cases v with
  | obj fs =>
    rw [flattenObject]
    exact (flatten_all_good (sizeOf fs)).2.1 fs pre [] (le_refl _)
      (by simpa [noUndefB] using hno) wfObj_nil (by intro kv hkv; cases hkv)
  | arr xs =>
    rw [flattenObject]
    exact (flatten_all_good (sizeOf xs)).2.2.1 xs 0 pre [] (le_refl _)
      (by simpa [noUndefB] using hno) wfObj_nil (by intro kv hkv; cases hkv)
  | null => exact ⟨wfObj_nil, by intro kv hkv; cases hkv⟩
  | undef => exact ⟨wfObj_nil, by intro kv hkv; cases hkv⟩
  | bool b => exact ⟨wfObj_nil, by intro kv hkv; cases hkv⟩
  | num q => exact ⟨wfObj_nil, by intro kv hkv; cases hkv⟩
  | str s2 => exact ⟨wfObj_nil, by intro kv hkv; cases hkv⟩

theorem insertIndexKey_eq_append {a : Type} (o : List (String × a)) (k : String)
    (i : Nat) (v : a) (hk : canonicalIndex k = some i)
    (hall : ∀ x ∈ o, keyBefore x.1 k = true) :
    insertIndexKey o k i v = o ++ [(k, v)] := by
  induction o with
  | nil => rfl
  | cons kv rest ih =>
    obtain ⟨k0, v0⟩ := kv
    have hb : keyBefore k0 k = true := hall (k0, v0) (by simp)
    rw [insertIndexKey]
    cases h0 : canonicalIndex k0 with
    | some j =>
      dsimp only
      have hj : j < i := by
        unfold keyBefore at hb
        rw [h0, hk] at hb
        simpa using hb
      rw [if_pos hj, ih (fun x hx => hall x (by simp [hx]))]
      rfl
    | none =>
      exfalso
      unfold keyBefore at hb
      rw [h0, hk] at hb
      cases hb

/-- Writing a fresh key that every existing key may precede appends the
entry at the end of the object body. -/
theorem setKey_fresh_ordered {a : Type} (o : List (String × a)) (k : String) (v : a)
    (hfresh : k ∉ o.map Prod.fst)
    (hord : ∀ x ∈ o, keyBefore x.1 k = true) :
    setKey o k v = o ++ [(k, v)] := by
  rw [setKey]
  have hany : (o.any (fun kv => kv.1 = k)) = false := by
    rw [anyKey_eq_isSome, (getKeyG_eq_none_iff o k).mpr hfresh]
    rfl
  simp only [hany, Bool.false_eq_true, if_false]
  cases hidx : canonicalIndex k with
  | some i => exact insertIndexKey_eq_append o k i v hidx hord
  | none => rfl

/-- Flattening a list of scalar fields with empty prefix onto an
accumulator that keeps the whole object well-formed just appends the
fields in order. -/
theorem flattenFields_flat : ∀ (g acc : JObj),
    (∀ kv ∈ g, isScalar kv.2 = true) → wfObj (acc ++ g) →
    flattenFields g "" acc = acc ++ g := by
  intro g
  induction g with
  | nil =>
    intro acc hsc hw
    rw [flattenFields]
    simp
  | cons kv rest ih =>
    intro acc hsc hw
    obtain ⟨k, v⟩ := kv
    rw [flattenFields]
    have hjoin : joinKey "" k = k := by simp [joinKey]
    have hv : isScalar v = true := hsc (k, v) (by simp)
    have hstep : flattenStep v (joinKey "" k) acc = setKey acc k v := by
      rw [hjoin, flattenStep.eq_def]
      cases v with
      | obj fs => exact absurd hv (by simp [isScalar])
      | arr xs => exact absurd hv (by simp [isScalar])
      | undef => exact absurd hv (by simp [isScalar])
      | null => rfl
      | bool b => rfl
      | num q => rfl
      | str s2 => rfl
    have hfresh : k ∉ acc.map Prod.fst := by
      have hnd := hw.1
      rw [List.map_append, List.nodup_append] at hnd
      intro hmem
      exact hnd.2.2 hmem (by simp)
    have hord : ∀ x ∈ acc, keyBefore x.1 k = true := by
      intro x hx
      have hp : List.Pairwise (fun x y => keyBefore x.1 y.1 = true) (acc ++ (k, v) :: rest) :=
        hw.2
      rw [List.pairwise_append] at hp
      exact hp.2.2 x hx (k, v) (by simp)
    rw [hstep, setKey_fresh_ordered acc k v hfresh hord]
    have hshift : acc ++ [(k, v)] ++ rest = acc ++ (k, v) :: rest := by
      simp
    have hw2 : wfObj (acc ++ [(k, v)] ++ rest) := by
      rw [hshift]
      exact hw
    rw [ih (acc ++ [(k, v)]) (fun x hx => hsc x (by simp [hx])) hw2, hshift]

/-- Flattening an already-flat well-formed object body returns it
unchanged. -/
theorem flattenObject_flat (g : JObj) (hw : wfObj g) (hsc : allScalarVals g) :
    flattenObject (.obj g) "" = g := by
  rw [flattenObject]
  have := flattenFields_flat g [] hsc (by simpa using hw)
  simpa using this

theorem isJson_noUndef : ∀ v : JVal, isJson v = true → noUndefB v = true := by
  intro v0
  refine noUndefB.induct
    (fun v => isJson v = true → noUndefB v = true)
    (fun fs => isJson.isJsonFields fs = true → noUndefFields fs = true)
    (fun xs => isJson.isJsonList xs = true → noUndefList xs = true)
    ?_ ?_ ?_ ?_ ?_ ?_ ?_ ?_ v0
  · intro h
    exact absurd h (by simp [isJson])
  · intro xs ih h
    rw [isJson] at h
    exact ih h
  · intro fs ih h
    rw [isJson, Bool.and_eq_true, Bool.and_eq_true] at h
    exact ih h.2
  · intro t h1 h2 h3 hj
    cases t with
    | undef => exact absurd rfl (fun he => h1 he)
    | arr xs => exact absurd rfl (fun he => h2 xs he)
    | obj fs => exact absurd rfl (fun he => h3 fs he)
    | null => rfl
    | bool b => rfl
    | num q => rfl
    | str s => rfl
  · intro h
    rfl
  · intro x xs ih1 ih2 h
    rw [isJson.isJsonList, Bool.and_eq_true] at h
    rw [noUndefList, Bool.and_eq_true]
    exact ⟨ih1 h.1, ih2 h.2⟩
  · intro h
    rfl
  · intro k v fs ih1 ih2 h
    rw [isJson.isJsonFields, Bool.and_eq_true] at h
    rw [noUndefFields, Bool.and_eq_true]
    exact ⟨ih1 h.1, ih2 h.2⟩


/-- C6: for an object document containing no `undefined` values, the
flattening transform produces a flat mapping — every value of the
output of `flattenObject` is a scalar (string, number, boolean or
`null`) — and flattening is idempotent on already-flat objects:
flattening its own output returns that output unchanged. -/
theorem claim6_flatten_flat_idempotent (fs : List (String × JVal))
    (h : noUndefFields fs = true) :
    allScalarVals (flattenObject (.obj fs) "") ∧
    flattenObject (.obj (flattenObject (.obj fs) "")) "" = flattenObject (.obj fs) "" := by
  have hg := flattenObject_good (.obj fs) "" (by simpa [noUndefB] using h)
  exact ⟨hg.2, flattenObject_flat _ hg.1 hg.2⟩

/-- C6 witness: the flat-output and idempotence property at a concrete
document with a nested object and a mixed array. -/
theorem claim6_flatten_flat_idempotent_witness :
    noUndefFields [("a", JVal.num 1),
      ("b", JVal.obj [("c", JVal.str "x"), ("d", JVal.null)]),
      ("e", JVal.arr [JVal.num 2, JVal.obj [("f", JVal.bool true)]])] = true ∧
    (allScalarVals (flattenObject (.obj [("a", JVal.num 1),
      ("b", JVal.obj [("c", JVal.str "x"), ("d", JVal.null)]),
      ("e", JVal.arr [JVal.num 2, JVal.obj [("f", JVal.bool true)]])]) "") ∧
    flattenObject (.obj (flattenObject (.obj [("a", JVal.num 1),
      ("b", JVal.obj [("c", JVal.str "x"), ("d", JVal.null)]),
      ("e", JVal.arr [JVal.num 2, JVal.obj [("f", JVal.bool true)]])]) "")) "" =
      flattenObject (.obj [("a", JVal.num 1),
        ("b", JVal.obj [("c", JVal.str "x"), ("d", JVal.null)]),
        ("e", JVal.arr [JVal.num 2, JVal.obj [("f", JVal.bool true)]])]) "") :=
  ⟨by decide,
    claim6_flatten_flat_idempotent
      [("a", JVal.num 1),
       ("b", JVal.obj [("c", JVal.str "x"), ("d", JVal.null)]),
       ("e", JVal.arr [JVal.num 2, JVal.obj [("f", JVal.bool true)]])]
      (by decide)⟩

/-! ## C5 — `groupRowsByKey`: buckets and key order -/

theorem getKeyG_isSome_iff_mem {a : Type} (o : List (String × a)) (k : String) :
    (getKeyG o k).isSome = true ↔ k ∈ o.map Prod.fst := by
  rw [Option.isSome_iff_ne_none, Ne, getKeyG_eq_none_iff, not_not]

theorem mapfst_setKey_mem {a : Type} (o : List (String × a)) (k : String) (v : a)
    (h : (getKeyG o k).isSome = true) :
    (setKey o k v).map Prod.fst = o.map Prod.fst := by
  rw [setKey]
  have hany : (o.any (fun kv => kv.1 = k)) = true := by
    rw [anyKey_eq_isSome]; exact h
  rw [if_pos hany]
  exact mapfst_updateKey o k v h

theorem setKey_fresh_nonIndex {a : Type} (o : List (String × a)) (k : String) (v : a)
    (hfresh : getKeyG o k = none) (hidx : canonicalIndex k = none) :
    setKey o k v = o ++ [(k, v)] := by
  rw [setKey]
  have hany : (o.any (fun kv => kv.1 = k)) = false := by
    rw [anyKey_eq_isSome, hfresh]; rfl
  simp only [hany, Bool.false_eq_true, if_false]
  rw [hidx]

theorem setKey_fresh_index {a : Type} (o : List (String × a)) (k : String) (v : a)
    (i : Nat) (hfresh : getKeyG o k = none) (hidx : canonicalIndex k = some i) :
    setKey o k v = insertIndexKey o k i v := by
  rw [setKey]
  have hany : (o.any (fun kv => kv.1 = k)) = false := by
    rw [anyKey_eq_isSome, hfresh]; rfl
  simp only [hany, Bool.false_eq_true, if_false]
  rw [hidx]

theorem filter_nonIndex_insertIndexKey {a : Type} (o : List (String × a)) (k : String)
    (i : Nat) (v : a) (hk : canonicalIndex k = some i) :
    ((insertIndexKey o k i v).map Prod.fst).filter (fun s => !(isIndexKey s)) =
      (o.map Prod.fst).filter (fun s => !(isIndexKey s)) := by
  induction o with
  | nil => simp [insertIndexKey, isIndexKey, hk]
  | cons kv rest ih =>
    obtain ⟨k0, v0⟩ := kv
    rw [insertIndexKey]
    cases h0 : canonicalIndex k0 with
    | some j =>
      dsimp only
      by_cases hj : j < i
      · rw [if_pos hj]
        simp only [List.map_cons, List.filter_cons, ih]
      · rw [if_neg hj]
        simp [List.filter_cons, isIndexKey, hk]
    | none =>
      dsimp only
      simp [List.filter_cons, isIndexKey, hk]

/-- Bucket contents of the `groupRowsByKey` fold: relative to the
accumulator, the bucket of `g` collects, in input order, the rows whose
group string is `g`. -/
theorem groupRows_fold_buckets (key : String) :
    ∀ (rows : List JObj) (acc : List (String × List JObj)) (g : String),
    getKeyG (rows.foldl (fun acc row =>
        match getKeyG acc (jsToString (getKey row key)) with
        | none => setKey acc (jsToString (getKey row key)) [row]
        | some l => setKey acc (jsToString (getKey row key)) (l ++ [row])) acc) g =
      match getKeyG acc g with
      | none =>
        if rows.filter (fun r => jsToString (getKey r key) = g) = [] then none
        else some (rows.filter (fun r => jsToString (getKey r key) = g))
      | some l => some (l ++ rows.filter (fun r => jsToString (getKey r key) = g)) := by
  intro rows
  induction rows with
  | nil =>
    intro acc g
    cases h : getKeyG acc g <;> simp [h]
  | cons r rest ih =>
    intro acc g
    rw [List.foldl_cons]
    by_cases hg : jsToString (getKey r key) = g
    · rw [hg]
      cases hacc : getKeyG acc g with
      | some l =>
        simp only [hacc]
        rw [ih, getKeyG_setKey]
        rw [if_pos rfl]
        simp [List.filter_cons, hg]
      | none =>
        simp only [hacc]
        rw [ih, getKeyG_setKey]
        rw [if_pos rfl]
        simp [List.filter_cons, hg]
    · cases hacc : getKeyG acc (jsToString (getKey r key)) with
      | some l =>
        simp only [hacc]
        rw [ih, getKeyG_setKey, if_neg hg]
        simp [List.filter_cons, hg]
      | none =>
        simp only [hacc]
        rw [ih, getKeyG_setKey, if_neg hg]
        simp [List.filter_cons, hg]

/-- Key structure of the `groupRowsByKey` fold: the keys are a
permutation of the first-seen group order, they sit in JS property
order without duplicates, and the non-index keys keep exactly the
first-seen order. -/
theorem groupRows_fold_keys (key : String) :
    ∀ (rows : List JObj) (acc : List (String × List JObj)) (seen : List String),
    List.Perm seen (acc.map Prod.fst) →
    (acc.map Prod.fst).Nodup →
    keysPairwise acc →
    seen.filter (fun s => !(isIndexKey s)) =
      (acc.map Prod.fst).filter (fun s => !(isIndexKey s)) →
    List.Perm
        (rows.foldl (fun seen row =>
          if jsToString (getKey row key) ∈ seen then seen
          else seen ++ [jsToString (getKey row key)]) seen)
        ((rows.foldl (fun acc row =>
          match getKeyG acc (jsToString (getKey row key)) with
          | none => setKey acc (jsToString (getKey row key)) [row]
          | some l => setKey acc (jsToString (getKey row key)) (l ++ [row])) acc).map
            Prod.fst) ∧
    ((rows.foldl (fun acc row =>
        match getKeyG acc (jsToString (getKey row key)) with
        | none => setKey acc (jsToString (getKey row key)) [row]
        | some l => setKey acc (jsToString (getKey row key)) (l ++ [row])) acc).map
          Prod.fst).Nodup ∧
    keysPairwise (rows.foldl (fun acc row =>
        match getKeyG acc (jsToString (getKey row key)) with
        | none => setKey acc (jsToString (getKey row key)) [row]
        | some l => setKey acc (jsToString (getKey row key)) (l ++ [row])) acc) ∧
    (rows.foldl (fun seen row =>
        if jsToString (getKey row key) ∈ seen then seen
        else seen ++ [jsToString (getKey row key)]) seen).filter
          (fun s => !(isIndexKey s)) =
      ((rows.foldl (fun acc row =>
        match getKeyG acc (jsToString (getKey row key)) with
        | none => setKey acc (jsToString (getKey row key)) [row]
        | some l => setKey acc (jsToString (getKey row key)) (l ++ [row])) acc).map
          Prod.fst).filter (fun s => !(isIndexKey s)) := by
  intro rows
  induction rows with
  | nil =>
    intro acc seen hperm hnd hp hfil
    exact ⟨hperm, hnd, hp, hfil⟩
  | cons r rest ih =>
    intro acc seen hperm hnd hp hfil
    rw [List.foldl_cons, List.foldl_cons]
    by_cases hmem : (getKeyG acc (jsToString (getKey r key))).isSome = true
    · have hseen : jsToString (getKey r key) ∈ seen := by
        rw [getKeyG_isSome_iff_mem] at hmem
        exact hperm.mem_iff.mpr hmem
      obtain ⟨l, hl⟩ := Option.isSome_iff_exists.mp hmem
      rw [if_pos hseen]
      simp only [hl]
      have hmf : (setKey acc (jsToString (getKey r key)) (l ++ [r])).map Prod.fst =
          acc.map Prod.fst := mapfst_setKey_mem acc _ _ hmem
      exact ih _ seen (by rw [hmf]; exact hperm) (by rw [hmf]; exact hnd)
        (pairwise_setKey _ _ hp) (by rw [hmf]; exact hfil)
    · have hnone : getKeyG acc (jsToString (getKey r key)) = none :=
        Option.not_isSome_iff_eq_none.mp (by simpa using hmem)
      have hseen : jsToString (getKey r key) ∉ seen := by
        rw [hperm.mem_iff, ← getKeyG_isSome_iff_mem]
        simpa using hmem
      rw [if_neg hseen]
      simp only [hnone]
      have hsp : List.Perm
          ((setKey acc (jsToString (getKey r key)) [r]).map Prod.fst)
          (jsToString (getKey r key) :: acc.map Prod.fst) := by
        have := (setKey_perm_of_fresh acc (jsToString (getKey r key)) [r] hnone).map
          Prod.fst
        simpa using this
      refine ih _ (seen ++ [jsToString (getKey r key)]) ?_ ?_
        (pairwise_setKey _ _ hp) ?_
      · refine List.Perm.trans (List.perm_append_singleton _ _) ?_
        exact List.Perm.trans (List.Perm.cons _ hperm) hsp.symm
      · have hnd2 : (jsToString (getKey r key) :: acc.map Prod.fst).Nodup := by
          refine List.Nodup.cons ?_ hnd
          rw [← getKeyG_isSome_iff_mem]
          simpa using hmem
        exact (hsp.nodup_iff).mpr hnd2
      · rw [List.filter_append]
        cases hidx : canonicalIndex (jsToString (getKey r key)) with
        | some i =>
          rw [setKey_fresh_index acc _ [r] i hnone hidx,
            filter_nonIndex_insertIndexKey acc _ i [r] hidx]
          have hIK : isIndexKey (jsToString (getKey r key)) = true := by
            rw [isIndexKey, hidx]; rfl
          simp [hIK, hfil]
        | none =>
          rw [setKey_fresh_nonIndex acc _ [r] hnone hidx]
          have hIK : isIndexKey (jsToString (getKey r key)) = false := by
            rw [isIndexKey, hidx]; rfl
          simp [hIK, List.filter_append, hfil]

/-- C5 counterexample: the spec promises first-seen key iteration
order, but a JavaScript object reorders integer-like group strings into
the ascending index prefix: grouping `[{g:"10"},{g:"2"}]` by `g` yields
key order `["2","10"]`, not the first-seen `["10","2"]`. -/
theorem claim5_group_key_order_counterexample :
    (groupRowsByKey numericGroupRows "g").map Prod.fst = ["2", "10"] ∧
    firstSeenGroups numericGroupRows "g" = ["10", "2"] ∧
    (groupRowsByKey numericGroupRows "g").map Prod.fst ≠
      firstSeenGroups numericGroupRows "g" :=
  ⟨by decide, by decide, by decide⟩

/-- C5 (amended): `groupRowsByKey` maps each group string to the list
of its rows in input order (absent iff no row has that group); the key
iteration order is the first-seen order only up to JS property-key
reordering: the keys are a permutation of the first-seen order, sit in
JS property order, and the non-index keys keep exactly the first-seen
order; on the spec example `[{g:"b"},{g:"a"},{g:"b"}]` the key order is
the first-seen `["b","a"]`. -/
theorem claim5_group_rows_amended (rows : List JObj) (key : String) :
    (∀ g : String,
      getKeyG (groupRowsByKey rows key) g =
        if rows.filter (fun r => jsToString (getKey r key) = g) = [] then none
        else some (rows.filter (fun r => jsToString (getKey r key) = g))) ∧
    List.Perm (firstSeenGroups rows key) ((groupRowsByKey rows key).map Prod.fst) ∧
    keysPairwise (groupRowsByKey rows key) ∧
    (firstSeenGroups rows key).filter (fun s => !(isIndexKey s)) =
      ((groupRowsByKey rows key).map Prod.fst).filter (fun s => !(isIndexKey s)) ∧
    (groupRowsByKey groupExampleRows "g").map Prod.fst = ["b", "a"] := by
  have hb := groupRows_fold_buckets key rows []
  have hk := groupRows_fold_keys key rows [] [] (List.Perm.refl _) (by simp)
    (by simp [keysPairwise]) (by simp)
  refine ⟨?_, ?_, ?_, ?_, by decide⟩
  · intro g
    have h := hb g
    rw [groupRowsByKey]
    simpa [getKeyG] using h
  · rw [groupRowsByKey, firstSeenGroups]
    exact hk.1
  · rw [groupRowsByKey]
    exact hk.2.2.1
  · rw [groupRowsByKey, firstSeenGroups]
    exact hk.2.2.2

/-! ## C1 — the JSON row extractor on object-rooted documents -/

/-- C1 counterexample: a top-level key containing a dot.  The search
returns the path `"a.b"`, but `getByPath` re-splits it on dots, reads
`undefined`, and `arr.forEach` throws: no rows are produced for a
found array path, contradicting the unconditional spec wording. -/
theorem claim1_dotted_key_counterexample :
    isJson dottedKeyDoc = true ∧
    findObjectArrayPath dottedKeyDoc "" = some "a.b" ∧
    parseJsonToRows dottedKeyDoc = .error () :=
  ⟨by decide, by decide, rfl⟩

theorem isJson_obj_parts {fs : List (String × JVal)} (h : isJson (.obj fs) = true) :
    keysNodupB fs = true ∧ isJson.isJsonFields fs = true := by
  rw [isJson, Bool.and_eq_true, Bool.and_eq_true] at h
  exact ⟨h.1.1, h.2⟩

theorem getKeyG_mem {a : Type} : ∀ {fs : List (String × a)} {k : String} {w : a},
    getKeyG fs k = some w → (k, w) ∈ fs := by
  intro fs
  induction fs with
  | nil => intro k w h; cases h
  | cons kv rest ih =>
    intro k w h
    obtain ⟨k0, v0⟩ := kv
    rw [getKeyG] at h
    by_cases h0 : k0 = k
    · rw [if_pos h0] at h
      cases h
      rw [h0]
      exact List.mem_cons_self _ _
    · rw [if_neg h0] at h
      exact List.mem_cons_of_mem _ (ih h)

theorem isJson_of_getKeyG : ∀ {fs : List (String × JVal)} {k : String} {w : JVal},
    isJson.isJsonFields fs = true → getKeyG fs k = some w → isJson w = true := by
  intro fs
  induction fs with
  | nil => intro k w _ h; cases h
  | cons kv rest ih =>
    intro k w hf h
    obtain ⟨k0, v0⟩ := kv
    rw [isJson.isJsonFields, Bool.and_eq_true] at hf
    rw [getKeyG] at h
    by_cases h0 : k0 = k
    · rw [if_pos h0] at h
      cases h
      exact hf.1
    · rw [if_neg h0] at h
      exact ih hf.2 h

theorem lookupChain_isJson : ∀ (chain : List String) (v w : JVal),
    isJson v = true → lookupChain v chain = some w → isJson w = true := by
  intro chain
  induction chain with
  | nil =>
    intro v w hv h
    rw [lookupChain] at h
    cases h
    exact hv
  | cons k rest ih =>
    intro v w hv h
    cases v with
    | obj fs =>
      rw [lookupChain] at h
      cases hk : getKeyG fs k with
      | none => rw [hk] at h; cases h
      | some child =>
        rw [hk] at h
        dsimp only at h
        exact ih child w (isJson_of_getKeyG (isJson_obj_parts hv).2 hk) h
    | null => cases h
    | undef => cases h
    | bool b => cases h
    | num q => cases h
    | str s2 => cases h
    | arr xs => cases h

theorem goodKey_of_getKeyG : ∀ {fs : List (String × JVal)} {k : String} {w : JVal},
    goodKeysFields fs = true → getKeyG fs k = some w →
    goodKey k = true ∧ goodKeysB w = true := by
  intro fs
  induction fs with
  | nil => intro k w _ h; cases h
  | cons kv rest ih =>
    intro k w hf h
    obtain ⟨k0, v0⟩ := kv
    rw [goodKeysFields, Bool.and_eq_true, Bool.and_eq_true] at hf
    rw [getKeyG] at h
    by_cases h0 : k0 = k
    · rw [if_pos h0] at h
      cases h
      rw [← h0]
      exact ⟨hf.1.1, hf.1.2⟩
    · rw [if_neg h0] at h
      exact ih hf.2 h

theorem chain_goodKeys : ∀ (chain : List String) (v w : JVal),
    goodKeysB v = true → lookupChain v chain = some w →
    ∀ k ∈ chain, goodKey k = true := by
  intro chain
  induction chain with
  | nil => intro v w _ _ k hk; cases hk
  | cons k0 rest ih =>
    intro v w hv h k hk
    cases v with
    | obj fs =>
      rw [lookupChain] at h
      cases hg : getKeyG fs k0 with
      | none => rw [hg] at h; cases h
      | some child =>
        rw [hg] at h
        dsimp only at h
        have hgf : goodKeysFields fs = true := by simpa [goodKeysB] using hv
        have hc := goodKey_of_getKeyG hgf hg
        rcases List.mem_cons.mp hk with rfl | hk'
        · exact hc.1
        · exact ih child w hc.2 h k hk'
    | null => cases h
    | undef => cases h
    | bool b => cases h
    | num q => cases h
    | str s2 => cases h
    | arr xs => cases h

theorem splitOnDot_no_dot : ∀ (a : List Char), '.' ∉ a → splitOnDotChars a = [a] := by
  intro a
  induction a with
  | nil => intro _; rfl
  | cons c cs ih =>
    intro h
    rw [splitOnDotChars]
    have hc : ¬(c = '.') := fun he => h (by rw [he]; exact List.mem_cons_self _ _)
    rw [if_neg hc, ih (fun hm => h (List.mem_cons_of_mem _ hm))]

theorem splitOnDot_append : ∀ (a cs : List Char), '.' ∉ a →
    splitOnDotChars (a ++ '.' :: cs) = a :: splitOnDotChars cs := by
  intro a
  induction a with
  | nil =>
    intro cs _
    rw [List.nil_append, splitOnDotChars, if_pos rfl]
  | cons c a ih =>
    intro cs h
    have hc : ¬(c = '.') := fun he => h (by rw [he]; exact List.mem_cons_self _ _)
    rw [List.cons_append, splitOnDotChars, if_neg hc,
      ih cs (fun hm => h (List.mem_cons_of_mem _ hm))]

theorem goodKey_no_dot {k : String} (h : goodKey k = true) : '.' ∉ k.data := by
  rw [goodKey, Bool.and_eq_true] at h
  have h2 := h.2
  intro hm
  rw [Bool.not_eq_true'] at h2
  have h3 : k.data.elem '.' = true := List.elem_iff.mpr hm
  have h4 : k.data.contains '.' = true := h3
  rw [h2] at h4
  cases h4

theorem splitDots_dotJoin : ∀ (chain : List String),
    (∀ k ∈ chain, goodKey k = true) → chain ≠ [] →
    splitDots (dotJoin chain) = chain := by
  intro chain
  induction chain with
  | nil => intro _ h; exact absurd rfl h
  | cons k rest ih =>
    intro hg _
    cases rest with
    | nil =>
      rw [dotJoin, splitDots]
      rw [splitOnDot_no_dot k.data (goodKey_no_dot (hg k (by simp)))]
      simp
    | cons k2 rest2 =>
      rw [dotJoin, splitDots]
      have hdata : (k ++ "." ++ dotJoin (k2 :: rest2)).data =
          k.data ++ '.' :: (dotJoin (k2 :: rest2)).data := by
        rw [String.data_append, String.data_append]
        simp
      rw [hdata, splitOnDot_append k.data _ (goodKey_no_dot (hg k (by simp)))]
      have htail := ih (fun x hx => hg x (by simp [hx])) (by simp)
      rw [splitDots] at htail
      rw [List.map_cons, htail]
      simp

theorem string_append_ne_empty {a b : String} (h : a ≠ "") : a ++ b ≠ "" := by
  intro he
  apply h
  have hd : (a ++ b).data = [] := by rw [he]
  rw [String.data_append, List.append_eq_nil] at hd
  cases a with
  | mk l =>
    cases hd.1
    rfl

theorem dotJoin_cons_cons (a b : String) (l : List String) :
    dotJoin (a :: b :: l) = a ++ "." ++ dotJoin (b :: l) := rfl

theorem extendPath_cons_dotJoin : ∀ (chain : List String) (cur : String),
    cur ≠ "" → extendPath cur chain = dotJoin (cur :: chain) := by
  intro chain
  induction chain with
  | nil => intro cur _; rfl
  | cons k rest ih =>
    intro cur hcur
    rw [extendPath, List.foldl_cons]
    have hjoin : joinKey cur k = cur ++ "." ++ k := by rw [joinKey, if_neg hcur]
    rw [hjoin]
    have hne : cur ++ "." ++ k ≠ "" :=
      string_append_ne_empty (string_append_ne_empty hcur)
    have h2 := ih (cur ++ "." ++ k) hne
    rw [extendPath] at h2
    rw [h2, dotJoin_cons_cons]
    cases rest with
    | nil => rfl
    | cons k2 rest2 =>
      rw [dotJoin_cons_cons, dotJoin_cons_cons]
      simp [String.append_assoc]

theorem extendPath_root_dotJoin (chain : List String) (hne : chain ≠ [])
    (hg : ∀ k ∈ chain, goodKey k = true) :
    extendPath "" chain = dotJoin chain := by
  cases chain with
  | nil => exact absurd rfl hne
  | cons k rest =>
    rw [extendPath, List.foldl_cons]
    have hjoin : joinKey "" k = k := by rw [joinKey, if_pos rfl]
    rw [hjoin]
    have hk : k ≠ "" := by
      have := hg k (by simp)
      rw [goodKey, Bool.and_eq_true] at this
      simpa using this.1
    have := extendPath_cons_dotJoin rest k hk
    rw [extendPath] at this
    exact this

theorem foldl_get_chain : ∀ (chain : List String) (v w : JVal),
    lookupChain v chain = some w →
    chain.foldl (fun acc key => if jsTruthy acc then jsGetProp acc key else .undef) v = w := by
  intro chain
  induction chain with
  | nil =>
    intro v w h
    rw [lookupChain] at h
    cases h
    rfl
  | cons k rest ih =>
    intro v w h
    cases v with
    | obj fs =>
      rw [lookupChain] at h
      cases hk : getKeyG fs k with
      | none => rw [hk] at h; cases h
      | some child =>
        rw [hk] at h
        dsimp only at h
        rw [List.foldl_cons]
        have hstep : (if jsTruthy (.obj fs) then jsGetProp (.obj fs) k else .undef) = child := by
          rw [if_pos (by rfl)]
          rw [jsGetProp, getKey, hk]
          rfl
        rw [hstep]
        exact ih child w h
    | null => cases h
    | undef => cases h
    | bool b => cases h
    | num q => cases h
    | str s2 => cases h
    | arr xs => cases h

theorem filter_ne_undef_of_noUndef {xs : List JVal} (h : noUndefList xs = true) :
    xs.filter (fun it => it ≠ .undef) = xs := by
  rw [List.filter_eq_self]
  intro x hx
  simpa using ne_undef_of_noUndefB (noUndefList_mem h hx)

theorem deepCopy_eq_self : ∀ (n : Nat),
    (∀ v : JVal, sizeOf v ≤ n → noUndefB v = true → deepCopy v = v) ∧
    (∀ fs : List (String × JVal), sizeOf fs ≤ n → noUndefFields fs = true →
      deepCopyFields fs = fs) ∧
    (∀ xs : List JVal, sizeOf xs ≤ n → noUndefList xs = true →
      deepCopyElems xs = xs) := by
  intro n
  induction n with
  | zero =>
    refine ⟨?_, ?_, ?_⟩
    · intro v hle
      exact absurd hle (by cases v <;> simp)
    · intro fs hle
      exact absurd hle (by cases fs <;> simp)
    · intro xs hle
      exact absurd hle (by cases xs <;> simp)
  | succ n ih =>
    obtain ⟨ihV, ihF, ihE⟩ := ih
    refine ⟨?_, ?_, ?_⟩
    · intro v hle hno
      cases v with
      | obj fs =>
        rw [deepCopy]
        rw [ihF fs (by simp at hle; omega) (by simpa [noUndefB] using hno)]
      | arr xs =>
        rw [deepCopy]
        rw [ihE xs (by simp at hle; omega) (by simpa [noUndefB] using hno)]
      | null => rfl
      | undef => exact absurd hno (by simp [noUndefB])
      | bool b => rfl
      | num q => rfl
      | str s2 => rfl
    · intro fs hle hno
      cases fs with
      | nil => rfl
      | cons kv rest =>
        obtain ⟨k, v⟩ := kv
        rw [noUndefFields, Bool.and_eq_true] at hno
        rw [deepCopyFields, if_neg (ne_undef_of_noUndefB hno.1)]
        rw [ihV v (by simp at hle; omega) hno.1,
          ihF rest (by simp at hle; omega) hno.2]
    · intro xs hle hno
      cases xs with
      | nil => rfl
      | cons v rest =>
        rw [noUndefList, Bool.and_eq_true] at hno
        rw [deepCopyElems, if_neg (ne_undef_of_noUndefB hno.1)]
        rw [ihV v (by simp at hle; omega) hno.1,
          ihE rest (by simp at hle; omega) hno.2]

theorem updateKey_eq_map {fs : List (String × JVal)} {k : String} {child : JVal}
    (g : JVal → JVal) (hnd : (fs.map Prod.fst).Nodup) (hk : getKeyG fs k = some child) :
    updateKey fs k (g child) =
      fs.map (fun kv => if kv.1 = k then (k, g kv.2) else kv) := by
  induction fs with
  | nil => cases hk
  | cons kv rest ih =>
    obtain ⟨k0, v0⟩ := kv
    rw [List.map_cons, List.nodup_cons] at hnd
    rw [getKeyG] at hk
    rw [updateKey, List.map_cons]
    by_cases h0 : k0 = k
    · rw [if_pos h0] at hk ⊢
      cases hk
      dsimp only
      rw [if_pos h0]
      have hrest : rest.map (fun kv => if kv.1 = k then (k, g kv.2) else kv) = rest := by
        conv_rhs => rw [← List.map_id rest]
        apply List.map_congr_left
        intro x hx
        have hxk : x.1 ≠ k := by
          intro he
          have hmem : x.1 ∈ List.map Prod.fst rest := List.mem_map_of_mem Prod.fst hx
          rw [he, ← h0] at hmem
          exact hnd.1 hmem
        rw [if_neg hxk]
        rfl
      rw [hrest]
    · rw [if_neg h0] at hk ⊢
      dsimp only
      rw [if_neg h0, ih hnd.2 hk]

theorem nodup_of_keysNodupB {fs : List (String × JVal)} (h : keysNodupB fs = true) :
    (fs.map Prod.fst).Nodup := by
  simpa [keysNodupB] using h

theorem getLastD_cons_irrel : ∀ (l : List String) (x a b : String),
    (x :: l).getLastD a = (x :: l).getLastD b := by
  intro l
  induction l with
  | nil => intro x a b; rfl
  | cons y ys ih =>
    intro x a b
    rfl

/-- The chain of object keys behind a successful array-path search:
the found path string is the fold of the chain from the start path,
and the chain resolves to a value passing the candidate test. -/
theorem findPath_chain : ∀ (v : JVal) (cur : String),
    isJson v = true → ∀ f, findObjectArrayPath v cur = some f →
    ∃ (chain : List String) (w : JVal),
      lookupChain v chain = some w ∧ isArrayOfObjects w = true ∧
      f = extendPath cur chain := by
  intro v0 cur0
  refine findObjectArrayPath.induct
    (fun v cur => isJson v = true → ∀ f, findObjectArrayPath v cur = some f →
      ∃ (chain : List String) (w : JVal),
        lookupChain v chain = some w ∧ isArrayOfObjects w = true ∧
        f = extendPath cur chain)
    (fun fs cur => isJson.isJsonFields fs = true → keysNodupB fs = true →
      ∀ f, findLoop fs cur = some f →
      ∃ (k : String) (val : JVal) (chain : List String) (w : JVal),
        getKeyG fs k = some val ∧ lookupChain val chain = some w ∧
        isArrayOfObjects w = true ∧ f = extendPath (joinKey cur k) chain)
    ?_ ?_ ?_ ?_ ?_ ?_ ?_ v0 cur0
  · intro v cur ha _ f hf
    rw [findObjectArrayPath.eq_def, if_pos ha] at hf
    cases hf
    refine ⟨[], v, ?_, ha, rfl⟩
    cases v <;> rfl
  · intro cur fields ha ih hjson f hf
    rw [findObjectArrayPath.eq_def, if_neg ha] at hf
    have hparts := isJson_obj_parts hjson
    obtain ⟨k, val, chain, w, hk, hlc, hw, hfe⟩ := ih hparts.2 hparts.1 f hf
    refine ⟨k :: chain, w, ?_, hw, hfe⟩
    rw [lookupChain]
    simp only [hk]
    exact hlc
  · intro v cur ha hnotobj _ f hf
    rw [findObjectArrayPath.eq_def, if_neg ha] at hf
    cases v with
    | obj fs2 => exact absurd rfl (hnotobj fs2)
    | null => cases hf
    | undef => cases hf
    | bool b => cases hf
    | num q => cases hf
    | str s2 => cases hf
    | arr xs => cases hf
  · intro cur _ _ f hf
    cases hf
  · intro k val rest cur hfind ih1 ih2 hjson hnd f hf
    rw [findLoop, hfind] at hf
    dsimp only at hf
    rw [if_pos rfl] at hf
    rw [isJson.isJsonFields, Bool.and_eq_true] at hjson
    have hnd2 : keysNodupB ((k, val) :: rest) = true := hnd
    have hndl := nodup_of_keysNodupB hnd2
    rw [List.map_cons, List.nodup_cons] at hndl
    have hndr : keysNodupB rest = true := by
      rw [keysNodupB]
      exact decide_eq_true hndl.2
    obtain ⟨k2, val2, chain, w, hk2, hlc, hw, hfe⟩ := ih2 hjson.2 hndr f hf
    have hne : ¬(k = k2) := by
      intro he
      apply hndl.1
      rw [he]
      have hmem : (k2, val2) ∈ rest := getKeyG_mem hk2
      have hmem2 : k2 ∈ List.map Prod.fst rest := List.mem_map_of_mem Prod.fst hmem
      exact hmem2
    refine ⟨k2, val2, chain, w, ?_, hlc, hw, hfe⟩
    rw [getKeyG, if_neg hne]
    exact hk2
  · intro k val rest cur found hfind hne2 ih hjson hnd f hf
    rw [findLoop, hfind] at hf
    dsimp only at hf
    rw [if_neg hne2] at hf
    cases hf
    rw [isJson.isJsonFields, Bool.and_eq_true] at hjson
    obtain ⟨chain, w, hlc, hw, hfe⟩ := ih hjson.1 found hfind
    exact ⟨k, val, chain, w, by rw [getKeyG, if_pos rfl], hlc, hw, hfe⟩
  · intro k val rest cur hfind ih1 ih2 hjson hnd f hf
    rw [findLoop.eq_def] at hf
    dsimp only at hf
    simp only [hfind] at hf
    rw [isJson.isJsonFields, Bool.and_eq_true] at hjson
    have hnd2 : keysNodupB ((k, val) :: rest) = true := hnd
    have hndl := nodup_of_keysNodupB hnd2
    rw [List.map_cons, List.nodup_cons] at hndl
    have hndr : keysNodupB rest = true := by
      rw [keysNodupB]
      exact decide_eq_true hndl.2
    obtain ⟨k2, val2, chain, w, hk2, hlc, hw, hfe⟩ := ih2 hjson.2 hndr f hf
    have hne : ¬(k = k2) := by
      intro he
      apply hndl.1
      rw [he]
      have hmem : (k2, val2) ∈ rest := getKeyG_mem hk2
      have hmem2 : k2 ∈ List.map Prod.fst rest := List.mem_map_of_mem Prod.fst hmem
      exact hmem2
    refine ⟨k2, val2, chain, w, ?_, hlc, hw, hfe⟩
    rw [getKeyG, if_neg hne]
    exact hk2

/-- `removePath`'s walk-and-delete along a resolvable key chain agrees
with the spec's subtree removal. -/
theorem removeAt_spec : ∀ (chain : List String) (v w : JVal),
    chain ≠ [] → isJson v = true → lookupChain v chain = some w →
    removeAt v chain.dropLast (chain.getLastD "") = specRemoveChain v chain := by
  intro chain
  induction chain with
  | nil => intro v w h _ _; exact absurd rfl h
  | cons k rest ih =>
    intro v w _ hjson hlc
    cases v with
    | obj fs =>
      rw [lookupChain] at hlc
      cases hk : getKeyG fs k with
      | none =>
        rw [hk] at hlc
        cases hlc
      | some child =>
        rw [hk] at hlc
        dsimp only at hlc
        have hparts := isJson_obj_parts hjson
        cases rest with
        | nil =>
          show removeAt (.obj fs) [] k = _
          rw [removeAt]
          rw [if_pos (by rfl)]
          rfl
        | cons k2 rest2 =>
          have hdl : (k :: k2 :: rest2).dropLast = k :: (k2 :: rest2).dropLast := rfl
          have hld : (k :: k2 :: rest2).getLastD "" = (k2 :: rest2).getLastD "" := by
            rw [List.getLastD_cons]
            exact getLastD_cons_irrel rest2 k2 k ""
          rw [hdl, hld, removeAt]
          rw [if_pos (by rfl)]
          simp only [hk]
          have hchild := isJson_of_getKeyG hparts.2 hk
          rw [ih child w (by simp) hchild hlc]
          rw [updateKey_eq_map (fun x => specRemoveChain x (k2 :: rest2))
            (nodup_of_keysNodupB hparts.1) hk]
          rfl
    | null => cases hlc
    | undef => cases hlc
    | bool b => cases hlc
    | num q => cases hlc
    | str s2 => cases hlc
    | arr xs => cases hlc

/-- C1 (amended): for an object-rooted well-formed JSON document whose
keys are non-empty and dot-free, a found array path names a chain of
object keys; the extractor emits one row per element of the array at
that chain, each row being the flattened base document (the root with
the subtree at the chain removed) extended with the element flattening
re-prefixed by `P.` for object-like elements, or the key `P` mapped
directly to a scalar element. -/
theorem claim1_array_path_rows (fs : List (String × JVal)) (P : String)
    (hjson : isJson (.obj fs) = true)
    (hgood : goodKeysB (.obj fs) = true)
    (hfind : findObjectArrayPath (.obj fs) "" = some P) :
    ∃ (chain : List String) (elems : List JVal),
      chain ≠ [] ∧ P = dotJoin chain ∧
      lookupChain (.obj fs) chain = some (.arr elems) ∧
      parseJsonToRows (.obj fs) =
        .ok (elems.map
          (specRowFor (flattenObject (specRemoveChain (.obj fs) chain) "") P)) := by
  have hroot : isArrayOfObjects (.obj fs) = false := rfl
  have hloop : findLoop fs "" = some P := by
    rw [findObjectArrayPath.eq_def] at hfind
    rw [if_neg (by rw [hroot]; simp)] at hfind
    dsimp only at hfind
    exact hfind
  have hP : P ≠ "" := findLoop_ne_some_empty fs "" P hloop
  obtain ⟨chain, w, hlc, hw, hPe⟩ := findPath_chain (.obj fs) "" hjson P hfind
  have hchne : chain ≠ [] := by
    intro he
    rw [he] at hlc
    have hlc2 : some (JVal.obj fs) = some w := hlc
    cases hlc2
    rw [hroot] at hw
    cases hw
  have hgoodchain : ∀ k ∈ chain, goodKey k = true :=
    chain_goodKeys chain _ w (by simpa [goodKeysB] using hgood) hlc
  have hPdot : P = dotJoin chain := by
    rw [hPe]
    exact extendPath_root_dotJoin chain hchne hgoodchain
  cases w with
  | arr elems =>
    have hjsonw : isJson (.arr elems) = true := lookupChain_isJson chain _ _ hjson hlc
    have hnoUl : noUndefList elems = true := by
      have := isJson_noUndef (.arr elems) hjsonw
      simpa [noUndefB] using this
    refine ⟨chain, elems, hchne, hPdot, hlc, ?_⟩
    have hsplit : splitDots P = chain := by
      rw [hPdot]
      exact splitDots_dotJoin chain hgoodchain hchne
    have hget : getByPath (.obj fs) P = .arr elems := by
      rw [getByPath, hsplit]
      exact foldl_get_chain chain _ _ hlc
    have hdc : deepCopy (.obj fs) = .obj fs :=
      (deepCopy_eq_self (sizeOf (JVal.obj fs))).1 _ (le_refl _) (isJson_noUndef _ hjson)
    have hrp : removePath (.obj fs) P = specRemoveChain (.obj fs) chain := by
      rw [removePath]
      rw [hsplit]
      exact removeAt_spec chain (.obj fs) (.arr elems) hchne hjson hlc
    rw [parseJsonToRows]
    simp only [hfind]
    rw [if_neg hP]
    simp only [hget, hdc, hrp]
    rw [filter_ne_undef_of_noUndef hnoUl]
    rfl
  | obj fs2 => simp [isArrayOfObjects] at hw
  | null => simp [isArrayOfObjects] at hw
  | undef => simp [isArrayOfObjects] at hw
  | bool b => simp [isArrayOfObjects] at hw
  | num q => simp [isArrayOfObjects] at hw
  | str s2 => simp [isArrayOfObjects] at hw

/-- C1 witness: the spec's weather example
`{"city":"X","readings":[{"t":1,"v":10},{"t":2,"v":20}]}` satisfies the
hypotheses; the theorem applies, and the computed rows are exactly
`{"city":"X","readings.t":1,"readings.v":10}` and
`{"city":"X","readings.t":2,"readings.v":20}` in order. -/
theorem claim1_array_path_rows_witness :
    (isJson (.obj [("city", JVal.str "X"),
        ("readings", JVal.arr [JVal.obj [("t", JVal.num 1), ("v", JVal.num 10)],
          JVal.obj [("t", JVal.num 2), ("v", JVal.num 20)]])]) = true ∧
     goodKeysB (.obj [("city", JVal.str "X"),
        ("readings", JVal.arr [JVal.obj [("t", JVal.num 1), ("v", JVal.num 10)],
          JVal.obj [("t", JVal.num 2), ("v", JVal.num 20)]])]) = true ∧
     findObjectArrayPath (.obj [("city", JVal.str "X"),
        ("readings", JVal.arr [JVal.obj [("t", JVal.num 1), ("v", JVal.num 10)],
          JVal.obj [("t", JVal.num 2), ("v", JVal.num 20)]])]) "" = some "readings") ∧
    (∃ (chain : List String) (elems : List JVal),
      chain ≠ [] ∧ "readings" = dotJoin chain ∧
      lookupChain (.obj [("city", JVal.str "X"),
        ("readings", JVal.arr [JVal.obj [("t", JVal.num 1), ("v", JVal.num 10)],
          JVal.obj [("t", JVal.num 2), ("v", JVal.num 20)]])]) chain =
        some (.arr elems) ∧
      parseJsonToRows (.obj [("city", JVal.str "X"),
        ("readings", JVal.arr [JVal.obj [("t", JVal.num 1), ("v", JVal.num 10)],
          JVal.obj [("t", JVal.num 2), ("v", JVal.num 20)]])]) =
        .ok (elems.map
          (specRowFor (flattenObject (specRemoveChain (.obj [("city", JVal.str "X"),
            ("readings", JVal.arr [JVal.obj [("t", JVal.num 1), ("v", JVal.num 10)],
              JVal.obj [("t", JVal.num 2), ("v", JVal.num 20)]])]) chain) "")
            "readings"))) ∧
    parseJsonToRows (.obj [("city", JVal.str "X"),
        ("readings", JVal.arr [JVal.obj [("t", JVal.num 1), ("v", JVal.num 10)],
          JVal.obj [("t", JVal.num 2), ("v", JVal.num 20)]])]) =
      .ok [[("city", JVal.str "X"), ("readings.t", JVal.num 1), ("readings.v", JVal.num 10)],
           [("city", JVal.str "X"), ("readings.t", JVal.num 2), ("readings.v", JVal.num 20)]] :=
  ⟨⟨by decide, by decide, by decide⟩,
   claim1_array_path_rows
     [("city", JVal.str "X"),
      ("readings", JVal.arr [JVal.obj [("t", JVal.num 1), ("v", JVal.num 10)],
        JVal.obj [("t", JVal.num 2), ("v", JVal.num 20)]])]
     "readings" (by decide) (by decide) (by decide),
   rfl⟩

/-! ## C10 — `parseJsonToRows` does not mutate its input (heap model) -/

theorem writeH_next (h : Heap) (a : Nat) (nd : HNode) : (writeH h a nd).next = h.next := rfl

theorem lookupH_writeH_ne (h : Heap) (addr : Nat) (nd : HNode) (b : Nat)
    (hne : b ≠ addr) : lookupH (writeH h addr nd) b = lookupH h b := by
  obtain ⟨mem, nx⟩ := h
  rw [lookupH, lookupH, writeH]
  dsimp only
  congr 1
  induction mem with
  | nil => rfl
  | cons p rest ih =>
    rw [List.map_cons, List.find?_cons, List.find?_cons]
    by_cases hp : p.1 = addr
    · rw [if_pos hp]
      have hb1 : decide ((addr, nd).1 = b) = false := by
        simp only [decide_eq_false_iff_not]
        exact fun he => hne he.symm
      have hb2 : decide (p.1 = b) = false := by
        simp only [decide_eq_false_iff_not]
        rw [hp]
        exact fun he => hne he.symm
      simp only [hb1, hb2]
      exact ih
    · rw [if_neg hp]
      by_cases hb : p.1 = b
      · simp only [decide_eq_true hb]
      · have hbf : decide (p.1 = b) = false := by
          simp only [decide_eq_false_iff_not]
          exact hb
        simp only [hbf]
        exact ih

theorem lookupH_allocH_ne (h : Heap) (nd : HNode) (b : Nat) (hne : b ≠ h.next) :
    lookupH (allocH h nd).1 b = lookupH h b := by
  rw [allocH, lookupH, lookupH]
  dsimp only
  rw [List.find?_cons]
  have hb : decide ((h.next, nd).1 = b) = false := by
    simp only [decide_eq_false_iff_not]
    exact fun he => hne he.symm
  simp only [hb]

theorem lookupH_allocH_self (h : Heap) (nd : HNode) :
    lookupH (allocH h nd).1 h.next = some nd := by
  rw [allocH, lookupH]
  dsimp only
  rw [List.find?_cons]
  have hb : decide ((h.next, nd).1 = h.next) = true := by simp
  simp [hb]

theorem lookupH_mem {h : Heap} {a : Nat} {nd : HNode} (hl : lookupH h a = some nd) :
    (a, nd) ∈ h.mem := by
  rw [lookupH] at hl
  cases hf : h.mem.find? (fun p => p.1 = a) with
  | none => rw [hf] at hl; cases hl
  | some p =>
    rw [hf] at hl
    have hp1 : p.1 = a := by
      have := List.find?_some hf
      simpa using this
    have hp2 : p.2 = nd := by
      simpa using hl
    have hpm := List.mem_of_find?_eq_some hf
    rw [← hp1, ← hp2]
    exact hpm

theorem wfHeap_parts {h : Heap} (hwf : wfHeapB h = true) :
    (∀ p ∈ h.mem, p.1 < h.next) ∧
    (∀ (a : Nat) (nd : HNode), lookupH h a = some nd →
      ∀ r ∈ nodeRefs nd, r < h.next) := by
  rw [wfHeapB, List.all_eq_true] at hwf
  constructor
  · intro p hp
    have := hwf p hp
    rw [Bool.and_eq_true] at this
    exact of_decide_eq_true this.1
  · intro a nd hl r hr
    have hm := lookupH_mem hl
    have := hwf (a, nd) hm
    rw [Bool.and_eq_true, List.all_eq_true] at this
    exact of_decide_eq_true (this.2 r hr)

theorem closedFrom_of_bounds {h : Heap} (hb : ∀ p ∈ h.mem, p.1 < h.next) :
    ClosedFrom h.next h := by
  intro a nd hge hl r hr
  exact absurd (hb (a, nd) (lookupH_mem hl)) (by omega)

theorem nodeRefs_hobj {fs : List (String × HVal)} {kv : String × HVal} {r : Nat}
    (hkv : kv ∈ fs) (he : kv.2 = .href r) : r ∈ nodeRefs (.hobj fs) := by
  rw [nodeRefs]
  rw [List.mem_filterMap]
  exact ⟨kv, hkv, by rw [he]⟩

theorem nodeRefs_harr {xs : List HVal} {x : HVal} {r : Nat}
    (hx : x ∈ xs) (he : x = .href r) : r ∈ nodeRefs (.harr xs) := by
  rw [nodeRefs]
  rw [List.mem_filterMap]
  exact ⟨x, hx, by rw [he]⟩

theorem allocH_next (h : Heap) (nd : HNode) : (allocH h nd).1.next = h.next + 1 := rfl

theorem allocH_addr (h : Heap) (nd : HNode) : (allocH h nd).2 = h.next := rfl

theorem nodeRefs_hobj_inv {fs : List (String × HVal)} {r : Nat}
    (hr : r ∈ nodeRefs (.hobj fs)) : ∃ kv ∈ fs, kv.2 = .href r := by
  rw [nodeRefs, List.mem_filterMap] at hr
  obtain ⟨kv, hkv, hm⟩ := hr
  cases hkv2 : kv.2 <;> rw [hkv2] at hm
  case href a =>
    dsimp only at hm
    cases hm
    exact ⟨kv, hkv, hkv2⟩
  all_goals cases hm

theorem nodeRefs_harr_inv {xs : List HVal} {r : Nat}
    (hr : r ∈ nodeRefs (.harr xs)) : ∃ x ∈ xs, x = HVal.href r := by
  rw [nodeRefs, List.mem_filterMap] at hr
  obtain ⟨x, hx, hm⟩ := hr
  cases hx2 : x <;> rw [hx2] at hm
  case href a =>
    dsimp only at hm
    cases hm
    exact ⟨x, hx, hx2⟩
  all_goals cases hm

theorem heapInv_alloc {n : Nat} {h : Heap} {nd : HNode} (hinv : HeapInv n h)
    (hrefs : ∀ r ∈ nodeRefs nd, n ≤ r) : HeapInv n (allocH h nd).1 := by
  obtain ⟨hn, hb, hc⟩ := hinv
  refine ⟨?_, ?_, ?_⟩
  · rw [allocH_next]; omega
  · intro p hp
    rw [allocH_next]
    rcases List.mem_cons.mp hp with rfl | hp2
    · dsimp only; omega
    · have := hb p hp2; omega
  · intro a2 nd2 hge hl2 r hr
    by_cases ha2 : a2 = h.next
    · subst ha2
      rw [lookupH_allocH_self] at hl2
      cases hl2
      exact hrefs r hr
    · rw [lookupH_allocH_ne h nd a2 ha2] at hl2
      exact hc a2 nd2 hge hl2 r hr

/-- The copy phase: the allocation bound only grows, the invariant is
preserved, the old heap (below the starting bound) is untouched, and
every produced value references only the fresh region. -/
theorem deepCopyH_facts (n : Nat) : ∀ (fuel : Nat),
    (∀ (h : Heap) (v : HVal), HeapInv n h →
      h.next ≤ (deepCopyH fuel h v).1.next ∧ HeapInv n (deepCopyH fuel h v).1 ∧
      (∀ b, b < h.next → lookupH (deepCopyH fuel h v).1 b = lookupH h b) ∧
      hValGe n (deepCopyH fuel h v).2) ∧
    (∀ (h : Heap) (fs : List (String × HVal)), HeapInv n h →
      h.next ≤ (deepCopyFieldsH fuel h fs).1.next ∧
      HeapInv n (deepCopyFieldsH fuel h fs).1 ∧
      (∀ b, b < h.next → lookupH (deepCopyFieldsH fuel h fs).1 b = lookupH h b) ∧
      (∀ kv ∈ (deepCopyFieldsH fuel h fs).2, hValGe n kv.2)) ∧
    (∀ (h : Heap) (xs : List HVal), HeapInv n h →
      h.next ≤ (deepCopyElemsH fuel h xs).1.next ∧
      HeapInv n (deepCopyElemsH fuel h xs).1 ∧
      (∀ b, b < h.next → lookupH (deepCopyElemsH fuel h xs).1 b = lookupH h b) ∧
      (∀ x ∈ (deepCopyElemsH fuel h xs).2, hValGe n x)) := by
  intro fuel
  induction fuel with
  | zero =>
    refine ⟨?_, ?_, ?_⟩
    · intro h v hinv
      cases v <;>
        exact ⟨le_refl _, hinv, fun b _ => rfl, trivial⟩
    · intro h fs hinv
      cases fs with
      | nil => exact ⟨le_refl _, hinv, fun b _ => rfl, by intro kv hkv; cases hkv⟩
      | cons kv rest => exact ⟨le_refl _, hinv, fun b _ => rfl, by intro kv hkv; cases hkv⟩
    · intro h xs hinv
      cases xs with
      | nil => exact ⟨le_refl _, hinv, fun b _ => rfl, by intro x hx; cases hx⟩
      | cons x rest => exact ⟨le_refl _, hinv, fun b _ => rfl, by intro x hx; cases hx⟩
  | succ fuel ih =>
    obtain ⟨ihV, ihF, ihE⟩ := ih
    refine ⟨?_, ?_, ?_⟩
    · intro h v hinv
      cases v with
      | hnull => exact ⟨le_refl _, hinv, fun b _ => rfl, trivial⟩
      | hundef => exact ⟨le_refl _, hinv, fun b _ => rfl, trivial⟩
      | hbool b2 => exact ⟨le_refl _, hinv, fun b _ => rfl, trivial⟩
      | hnum q => exact ⟨le_refl _, hinv, fun b _ => rfl, trivial⟩
      | hstr s2 => exact ⟨le_refl _, hinv, fun b _ => rfl, trivial⟩
      | href a =>
        cases hl : lookupH h a with
        | none =>
          have heq : deepCopyH (fuel + 1) h (.href a) = (h, .hnull) := by
            rw [deepCopyH]
            simp [hl]
          rw [heq]
          exact ⟨le_refl _, hinv, fun b _ => rfl, trivial⟩
        | some nd =>
          cases nd with
          | hobj fs =>
            have heq : deepCopyH (fuel + 1) h (.href a) =
                ((allocH (deepCopyFieldsH fuel h fs).1
                    (.hobj (deepCopyFieldsH fuel h fs).2)).1,
                 .href (deepCopyFieldsH fuel h fs).1.next) := by
              rw [deepCopyH]
              simp [hl, allocH_addr]
            rw [heq]
            obtain ⟨hn1, hinv1, hframe1, hvals1⟩ := ihF h fs hinv
            refine ⟨?_, ?_, ?_, ?_⟩
            · rw [allocH_next]; omega
            · refine heapInv_alloc hinv1 ?_
              intro r hr
              obtain ⟨kv, hkv, hkv2⟩ := nodeRefs_hobj_inv hr
              have := hvals1 kv hkv
              rw [hkv2] at this
              exact this
            · intro b hb
              have hne : b ≠ (deepCopyFieldsH fuel h fs).1.next := by omega
              rw [lookupH_allocH_ne _ _ b hne]
              exact hframe1 b hb
            · show n ≤ (deepCopyFieldsH fuel h fs).1.next
              have := hinv.1
              omega
          | harr xs =>
            have heq : deepCopyH (fuel + 1) h (.href a) =
                ((allocH (deepCopyElemsH fuel h xs).1
                    (.harr (deepCopyElemsH fuel h xs).2)).1,
                 .href (deepCopyElemsH fuel h xs).1.next) := by
              rw [deepCopyH]
              simp [hl, allocH_addr]
            rw [heq]
            obtain ⟨hn1, hinv1, hframe1, hvals1⟩ := ihE h xs hinv
            refine ⟨?_, ?_, ?_, ?_⟩
            · rw [allocH_next]; omega
            · refine heapInv_alloc hinv1 ?_
              intro r hr
              obtain ⟨x, hx, hx2⟩ := nodeRefs_harr_inv hr
              have := hvals1 x hx
              rw [hx2] at this
              exact this
            · intro b hb
              have hne : b ≠ (deepCopyElemsH fuel h xs).1.next := by omega
              rw [lookupH_allocH_ne _ _ b hne]
              exact hframe1 b hb
            · show n ≤ (deepCopyElemsH fuel h xs).1.next
              have := hinv.1
              omega
    · intro h fs hinv
      cases fs with
      | nil => exact ⟨le_refl _, hinv, fun b _ => rfl, by intro kv hkv; cases hkv⟩
      | cons kv rest =>
        obtain ⟨k, v⟩ := kv
        by_cases hv : v = .hundef
        · have heq : deepCopyFieldsH (fuel + 1) h ((k, v) :: rest) =
              deepCopyFieldsH fuel h rest := by
            rw [deepCopyFieldsH]
            rw [if_pos hv]
          rw [heq]
          exact ihF h rest hinv
        · have heq : deepCopyFieldsH (fuel + 1) h ((k, v) :: rest) =
              ((deepCopyFieldsH fuel (deepCopyH fuel h v).1 rest).1,
               (k, (deepCopyH fuel h v).2) ::
                 (deepCopyFieldsH fuel (deepCopyH fuel h v).1 rest).2) := by
            rw [deepCopyFieldsH]
            rw [if_neg hv]
          rw [heq]
          dsimp only
          obtain ⟨hn1, hinv1, hframe1, hval1⟩ := ihV h v hinv
          obtain ⟨hn2, hinv2, hframe2, hvals2⟩ :=
            ihF (deepCopyH fuel h v).1 rest hinv1
          refine ⟨by omega, hinv2, ?_, ?_⟩
          · intro b hb
            rw [hframe2 b (by omega)]
            exact hframe1 b hb
          · intro kv2 hkv2
            rcases List.mem_cons.mp hkv2 with rfl | hkv3
            · exact hval1
            · exact hvals2 kv2 hkv3
    · intro h xs hinv
      cases xs with
      | nil => exact ⟨le_refl _, hinv, fun b _ => rfl, by intro x hx; cases hx⟩
      | cons v rest =>
        by_cases hv : v = .hundef
        · have heq : deepCopyElemsH (fuel + 1) h (v :: rest) =
              ((deepCopyElemsH fuel h rest).1,
               HVal.hnull :: (deepCopyElemsH fuel h rest).2) := by
            rw [deepCopyElemsH]
            rw [if_pos hv]
          rw [heq]
          obtain ⟨hn2, hinv2, hframe2, hvals2⟩ := ihE h rest hinv
          refine ⟨hn2, hinv2, hframe2, ?_⟩
          intro x hx
          rcases List.mem_cons.mp hx with rfl | hx2
          · trivial
          · exact hvals2 x hx2
        · have heq : deepCopyElemsH (fuel + 1) h (v :: rest) =
              ((deepCopyElemsH fuel (deepCopyH fuel h v).1 rest).1,
               (deepCopyH fuel h v).2 ::
                 (deepCopyElemsH fuel (deepCopyH fuel h v).1 rest).2) := by
            rw [deepCopyElemsH]
            rw [if_neg hv]
          rw [heq]
          dsimp only
          obtain ⟨hn1, hinv1, hframe1, hval1⟩ := ihV h v hinv
          obtain ⟨hn2, hinv2, hframe2, hvals2⟩ :=
            ihE (deepCopyH fuel h v).1 rest hinv1
          refine ⟨by omega, hinv2, ?_, ?_⟩
          · intro b hb
            rw [hframe2 b (by omega)]
            exact hframe1 b hb
          · intro x hx
            rcases List.mem_cons.mp hx with rfl | hx2
            · exact hval1
            · exact hvals2 x hx2

theorem hGetProp_ge {n : Nat} {h : Heap} {v : HVal} (key : String)
    (hc : ClosedFrom n h) (hv : hValGe n v) : hValGe n (hGetProp h v key) := by
  cases v with
  | href a =>
    rw [hGetProp]
    cases hl : lookupH h a with
    | none => trivial
    | some nd =>
      cases nd with
      | hobj fs =>
        dsimp only
        cases hf : fs.find? (fun kv => kv.1 = key) with
        | none => trivial
        | some kv =>
          dsimp only
          have hmem := List.mem_of_find?_eq_some hf
          cases hkv2 : kv.2 with
          | href r =>
            have hr : r ∈ nodeRefs (.hobj fs) := nodeRefs_hobj hmem hkv2
            show n ≤ r
            exact hc a _ hv hl r hr
          | hnull => trivial
          | hundef => trivial
          | hbool b => trivial
          | hnum q => trivial
          | hstr s2 => trivial
      | harr xs =>
        dsimp only
        by_cases hk : key = "length"
        · rw [if_pos hk]; trivial
        · rw [if_neg hk]
          cases hi : canonicalIndex key with
          | none => trivial
          | some i =>
            dsimp only
            cases hg : xs.get? i with
            | none => trivial
            | some x =>
              have hmem : x ∈ xs := by
                have := List.get?_eq_some.mp hg
                obtain ⟨hlt, hget⟩ := this
                rw [← hget]
                exact List.get_mem xs i hlt
              cases hx2 : x with
              | href r =>
                have hr : r ∈ nodeRefs (.harr xs) := nodeRefs_harr hmem hx2
                show n ≤ r
                exact hc a _ hv hl r hr
              | hnull => trivial
              | hundef => trivial
              | hbool b => trivial
              | hnum q => trivial
              | hstr s2 => trivial
  | hstr s2 =>
    rw [hGetProp]
    by_cases hk : key = "length"
    · rw [if_pos hk]; trivial
    · rw [if_neg hk]
      cases hi : canonicalIndex key with
      | none => trivial
      | some i =>
        dsimp only
        cases hg : s2.data.get? i with
        | none => trivial
        | some c => trivial
  | hnull => trivial
  | hundef => trivial
  | hbool b => trivial
  | hnum q => trivial

theorem foldl_hGetProp_ge {n : Nat} {h : Heap} (keys : List String) (v : HVal)
    (hc : ClosedFrom n h) (hv : hValGe n v) :
    hValGe n (keys.foldl
      (fun acc key => if hTruthy acc then hGetProp h acc key else .hundef) v) := by
  induction keys generalizing v with
  | nil => exact hv
  | cons k rest ih =>
    rw [List.foldl_cons]
    by_cases ht : hTruthy v = true
    · rw [if_pos ht]
      exact ih _ (hGetProp_ge k hc hv)
    · rw [if_neg ht]
      exact ih _ trivial

/-- The delete phase only writes inside the closed region reached from
`v`: the heap below `n` is untouched. -/
theorem removePathH_frame {n : Nat} {h : Heap} {v : HVal} (path : String)
    (hc : ClosedFrom n h) (hv : hValGe n v) :
    ∀ b, b < n → lookupH (removePathH h v path) b = lookupH h b := by
  intro b hb
  rw [removePathH]
  have hpar := foldl_hGetProp_ge (splitDots path).dropLast v hc hv
  cases hp : (splitDots path).dropLast.foldl
      (fun acc key => if hTruthy acc then hGetProp h acc key else .hundef) v with
  | href a =>
    rw [hp] at hpar
    have ha : n ≤ a := hpar
    dsimp only
    cases hl : lookupH h a with
    | none => rfl
    | some nd =>
      cases nd with
      | hobj fs =>
        dsimp only
        exact lookupH_writeH_ne h a _ b (by omega)
      | harr xs =>
        dsimp only
        by_cases hlast : (splitDots path).getLastD "" = "length"
        · rw [if_pos hlast]
        · rw [if_neg hlast]
          cases hi : canonicalIndex ((splitDots path).getLastD "") with
          | none => rfl
          | some i =>
            dsimp only
            exact lookupH_writeH_ne h a _ b (by omega)
  | hnull => rfl
  | hundef => rfl
  | hbool b2 => rfl
  | hnum q => rfl
  | hstr s2 => rfl

/-- Reading a document back from two heaps that agree below `n` gives
the same value, when the document lives below `n`. -/
theorem readBackH_frame : ∀ (fuel : Nat) (h h2 : Heap) (n : Nat) (v : HVal),
    (∀ a, a < n → lookupH h2 a = lookupH h a) →
    (∀ (a : Nat) (nd : HNode), lookupH h a = some nd → ∀ r ∈ nodeRefs nd, r < n) →
    hValBelow n v = true →
    readBackH fuel h2 v = readBackH fuel h v := by
  intro fuel
  induction fuel with
  | zero =>
    intro h h2 n v _ _ _
    cases v <;> rfl
  | succ fuel ih =>
    intro h h2 n v hagree hrefs hv
    cases v with
    | hnull => rfl
    | hundef => rfl
    | hbool b => rfl
    | hnum q => rfl
    | hstr s2 => rfl
    | href a =>
      have ha : a < n := by simpa [hValBelow] using hv
      rw [readBackH, readBackH, hagree a ha]
      cases hl : lookupH h a with
      | none => rfl
      | some nd =>
        cases nd with
        | hobj fs =>
          dsimp only
          congr 1
          apply List.map_congr_left
          intro kv hkv
          congr 1
          apply ih h h2 n kv.2 hagree hrefs
          cases hkv2 : kv.2 with
          | href r =>
            have hr : r ∈ nodeRefs (.hobj fs) := nodeRefs_hobj hkv hkv2
            have := hrefs a _ hl r hr
            simpa [hValBelow] using this
          | hnull => rfl
          | hundef => rfl
          | hbool b => rfl
          | hnum q => rfl
          | hstr s3 => rfl
        | harr xs =>
          dsimp only
          congr 1
          apply List.map_congr_left
          intro x hx
          apply ih h h2 n x hagree hrefs
          cases hx2 : x with
          | href r =>
            have hr : r ∈ nodeRefs (.harr xs) := nodeRefs_harr hx hx2
            have := hrefs a _ hl r hr
            simpa [hValBelow] using this
          | hnull => rfl
          | hundef => rfl
          | hbool b => rfl
          | hnum q => rfl
          | hstr s3 => rfl

/-- C10: `parseJsonToRows` does not mutate its input.  Over the heap
model, every address of the original heap reads the same before and
after the run — the deep copy only allocates fresh nodes and the
array-path deletion writes only into the copy — so the input document
reads back structurally equal, and the returned rows are those of the
pure pipeline on that unchanged document. -/
theorem claim10_no_input_mutation (fuel : Nat) (h : Heap) (v : HVal)
    (hwf : wfHeapB h = true) (hv : hValBelow h.next v = true) :
    (∀ a, a < h.next → lookupH (parseJsonHeapSteps fuel h v) a = lookupH h a) ∧
    readBackH fuel (parseJsonHeapSteps fuel h v) v = readBackH fuel h v ∧
    (parseJsonToRowsH fuel h v).2 = parseJsonToRows (readBackH fuel h v) := by
  obtain ⟨hbounds, hrefs⟩ := wfHeap_parts hwf
  have hframe : ∀ a, a < h.next →
      lookupH (parseJsonHeapSteps fuel h v) a = lookupH h a := by
    intro b hb
    rw [parseJsonHeapSteps]
    cases hrb : readBackH fuel h v with
    | obj fs =>
      dsimp only
      cases hfp : findObjectArrayPath (.obj fs) "" with
      | none => rfl
      | some arrayPath =>
        dsimp only
        by_cases hap : arrayPath = ""
        · rw [if_pos hap]
        · rw [if_neg hap]
          have hinv : HeapInv h.next h :=
            ⟨le_refl _, hbounds, closedFrom_of_bounds hbounds⟩
          obtain ⟨hn1, hinv1, hframe1, hval1⟩ :=
            (deepCopyH_facts h.next fuel).1 h v hinv
          have h2 := removePathH_frame arrayPath hinv1.2.2 hval1 b hb
          rw [h2]
          exact hframe1 b hb
    | null => rfl
    | undef => rfl
    | bool b2 => rfl
    | num q => rfl
    | str s2 => rfl
    | arr xs => rfl
  exact ⟨hframe, readBackH_frame fuel h _ h.next v hframe hrefs hv, rfl⟩

/-- C10 witness: on the example heap holding the weather document, the
run leaves every original address intact, the document reads back
unchanged, and the rows equal the pure pipeline result. -/
theorem claim10_no_input_mutation_witness :
    wfHeapB exampleHeap = true ∧
    hValBelow exampleHeap.next (.href 0) = true ∧
    ((∀ a, a < exampleHeap.next →
        lookupH (parseJsonHeapSteps 10 exampleHeap (.href 0)) a =
          lookupH exampleHeap a) ∧
     readBackH 10 (parseJsonHeapSteps 10 exampleHeap (.href 0)) (.href 0) =
       readBackH 10 exampleHeap (.href 0) ∧
     (parseJsonToRowsH 10 exampleHeap (.href 0)).2 =
       parseJsonToRows (readBackH 10 exampleHeap (.href 0))) :=
  ⟨by decide, by decide,
   claim10_no_input_mutation 10 exampleHeap (.href 0) (by decide) (by decide)⟩

end UPlot
